import Mathlib

/-!
Verification of the waffledb time-series storage engine.

This file shallowly embeds the storage engine of the repository:
byte strings are lists of byte values, chunks are the columnar
containers of `columnar_storage.cpp`, the WAL record format follows
`wal.cpp`, and the engine state mirrors `waffledb.cpp`'s
`TimeSeriesDatabase::Impl`. Machine integers are modelled as `Nat`
(with explicit reduction modulo 2^w where the code can wrap), signed
integers as `Int` with two's-complement conversion, and `double`
values either as raw 64-bit patterns (`Nat`, for the byte-level
serialization code paths, which only `memcpy` them) or as rationals
(for the aggregation code paths; the floating-point rounding of `+`,
`min`, `max` is abstracted to exact arithmetic, matching the spec's
"up to floating-point associativity" reading).
-/

namespace WaffleDB

/-- A C++ `std::string` viewed as its byte contents. -/
abbrev Str := List Nat

/-- An `unordered_map<string,string>` in its iteration order: a list of
key/value pairs whose keys are pairwise distinct. -/
abbrev TagMap := List (Str × Str)

/-- Lookup in a tag map, as `unordered_map::find`: the first pair with the
given key. -/
def tagFind (tm : TagMap) (k : Str) : Option Str :=
  (tm.find? (fun kv => kv.1 == k)).map (fun kv => kv.2)

/-- `tags[key] = value` on an `unordered_map` modelled as a list: overwrite
the existing binding of `key`, otherwise append a new one. -/
def tagInsert (tm : TagMap) (k v : Str) : TagMap :=
  match tm with
  | [] => [(k, v)]
  | kv :: rest => if kv.1 = k then (k, v) :: rest else kv :: tagInsert rest k v

/-- Little-endian byte encoding of the low `w` bytes of `n`
(the `memcpy` of a `w`-byte integer on x86-64). -/
def leBytes : Nat → Nat → List Nat
  | 0, _ => []
  | w + 1, n => n % 256 :: leBytes w (n / 256)

/-- Little-endian byte decoding (the `memcpy` into a `w`-byte integer). -/
def leRead : Nat → List Nat → Nat
  | 0, _ => 0
  | _ + 1, [] => 0
  | w + 1, b :: bs => b % 256 + 256 * leRead w bs

/-- 4-byte (`uint32_t`) encoding. -/
def le32 (n : Nat) : List Nat := leBytes 4 n

/-- 8-byte (`uint64_t` / `size_t` / bit pattern of `double`) encoding. -/
def le64 (n : Nat) : List Nat := leBytes 8 n

theorem leBytes_length (w n : Nat) : (leBytes w n).length = w := by
  induction w generalizing n with
  | zero => rfl
  | succ w ih => simp [leBytes, ih]

theorem leRead_leBytes_append (w n : Nat) (rest : List Nat) :
    leRead w (leBytes w n ++ rest) = n % 2 ^ (8 * w) := by
  induction w generalizing n with
  | zero => simp [leBytes, leRead, Nat.mod_one]
  | succ w ih =>
      simp only [leBytes, List.cons_append, List.append_eq, leRead]
      rw [ih]
      have hpow : 2 ^ (8 * (w + 1)) = 256 * 2 ^ (8 * w) := by
        have : 8 * (w + 1) = 8 + 8 * w := by ring
        rw [this, pow_add]; norm_num
      rw [hpow, Nat.mod_mul]
      omega

/-- Fuel-driven core of the `std::lower_bound` binary search: halve the
interval, descend right when `t[mid] < val`. The fuel only bounds the
recursion depth; it is always called with `len ≤ fuel`. -/
def lbGo (t : List Nat) (val : Nat) : Nat → Nat → Nat → Nat
  | 0, first, _ => first
  | fuel + 1, first, len =>
      if len = 0 then first
      else
        let half := len / 2
        let mid := first + half
        if t.getD mid 0 < val then lbGo t val fuel (mid + 1) (len - half - 1)
        else lbGo t val fuel first half

/-- Fuel-driven core of the `std::upper_bound` binary search: descend left
when `val < t[mid]`. -/
def ubGo (t : List Nat) (val : Nat) : Nat → Nat → Nat → Nat
  | 0, first, _ => first
  | fuel + 1, first, len =>
      if len = 0 then first
      else
        let half := len / 2
        let mid := first + half
        if val < t.getD mid 0 then ubGo t val fuel first half
        else ubGo t val fuel (mid + 1) (len - half - 1)

theorem lbGo_congr (t : List Nat) (val : Nat) (f1 f2 first len : Nat)
    (h1 : len ≤ f1) (h2 : len ≤ f2) :
    lbGo t val f1 first len = lbGo t val f2 first len := by
  induction f1 generalizing f2 first len with
  | zero =>
      have hl : len = 0 := by omega
      cases f2 with
      | zero => rfl
      | succ f2 => simp [lbGo, hl]
  | succ f1 ih =>
      cases f2 with
      | zero =>
          have hl : len = 0 := by omega
          simp [lbGo, hl]
      | succ f2 =>
          simp only [lbGo]
          by_cases hl : len = 0
          · simp [hl]
          · simp only [hl, if_false]
            have hhalf : len / 2 < len := Nat.div_lt_self (Nat.pos_of_ne_zero hl) one_lt_two
            by_cases hc : t.getD (first + len / 2) 0 < val
            · simp only [hc, if_true]
              exact ih f2 _ _ (by omega) (by omega)
            · simp only [hc, if_false]
              exact ih f2 _ _ (by omega) (by omega)

theorem ubGo_congr (t : List Nat) (val : Nat) (f1 f2 first len : Nat)
    (h1 : len ≤ f1) (h2 : len ≤ f2) :
    ubGo t val f1 first len = ubGo t val f2 first len := by
  induction f1 generalizing f2 first len with
  | zero =>
      have hl : len = 0 := by omega
      cases f2 with
      | zero => rfl
      | succ f2 => simp [ubGo, hl]
  | succ f1 ih =>
      cases f2 with
      | zero =>
          have hl : len = 0 := by omega
          simp [ubGo, hl]
      | succ f2 =>
          simp only [ubGo]
          by_cases hl : len = 0
          · simp [hl]
          · simp only [hl, if_false]
            have hhalf : len / 2 < len := Nat.div_lt_self (Nat.pos_of_ne_zero hl) one_lt_two
            by_cases hc : val < t.getD (first + len / 2) 0
            · simp only [hc, if_true]
              exact ih f2 _ _ (by omega) (by omega)
            · simp only [hc, if_false]
              exact ih f2 _ _ (by omega) (by omega)

/-- The `std::lower_bound` binary search of
`ColumnarChunk::queryTimeRange` (`columnar_storage.cpp`, line 64)
on the index range `[first, first + len)`. -/
def lbAux (t : List Nat) (val : Nat) (first len : Nat) : Nat :=
  lbGo t val len first len

/-- The `std::upper_bound` binary search of
`ColumnarChunk::queryTimeRange` (`columnar_storage.cpp`, line 65)
on the index range `[first, first + len)`. -/
def ubAux (t : List Nat) (val : Nat) (first len : Nat) : Nat :=
  ubGo t val len first len

/-- Recursive unfolding of `lbAux` in the shape of the source loop. -/
theorem lbAux_eq (t : List Nat) (val first len : Nat) :
    lbAux t val first len =
      if len = 0 then first
      else
        let half := len / 2
        let mid := first + half
        if t.getD mid 0 < val then lbAux t val (mid + 1) (len - half - 1)
        else lbAux t val first half := by
  by_cases hl : len = 0
  · simp [lbAux, lbGo, hl]
  · obtain ⟨l, rfl⟩ : ∃ l, len = l + 1 := ⟨len - 1, by omega⟩
    simp only [lbAux, lbGo, hl, if_false]
    have hhalf : (l + 1) / 2 < l + 1 := Nat.div_lt_self (by omega) one_lt_two
    by_cases hc : t.getD (first + (l + 1) / 2) 0 < val
    · simp only [hc, if_true]
      exact lbGo_congr t val l _ _ _ (by omega) (by omega)
    · simp only [hc, if_false]
      exact lbGo_congr t val l _ _ _ (by omega) (by omega)

/-- Recursive unfolding of `ubAux` in the shape of the source loop. -/
theorem ubAux_eq (t : List Nat) (val first len : Nat) :
    ubAux t val first len =
      if len = 0 then first
      else
        let half := len / 2
        let mid := first + half
        if val < t.getD mid 0 then ubAux t val first half
        else ubAux t val (mid + 1) (len - half - 1) := by
  by_cases hl : len = 0
  · simp [ubAux, ubGo, hl]
  · obtain ⟨l, rfl⟩ : ∃ l, len = l + 1 := ⟨len - 1, by omega⟩
    simp only [ubAux, ubGo, hl, if_false]
    have hhalf : (l + 1) / 2 < l + 1 := Nat.div_lt_self (by omega) one_lt_two
    by_cases hc : val < t.getD (first + (l + 1) / 2) 0
    · simp only [hc, if_true]
      exact ubGo_congr t val l _ _ _ (by omega) (by omega)
    · simp only [hc, if_false]
      exact ubGo_congr t val l _ _ _ (by omega) (by omega)

theorem lbAux_bounds (t : List Nat) (val first len : Nat) :
    first ≤ lbAux t val first len ∧ lbAux t val first len ≤ first + len := by
  induction len using Nat.strong_induction_on generalizing first with
  | _ len ih =>
    rw [lbAux_eq]
    by_cases h : len = 0
    · simp [h]
    · simp only [h, if_false]
      have hhalf : len / 2 < len := Nat.div_lt_self (Nat.pos_of_ne_zero h) one_lt_two
      by_cases hc : t.getD (first + len / 2) 0 < val
      · simp only [hc, if_true]
        have := ih (len - len / 2 - 1) (by omega) (first + len / 2 + 1)
        omega
      · simp only [hc, if_false]
        have := ih (len / 2) hhalf first
        omega

theorem ubAux_bounds (t : List Nat) (val first len : Nat) :
    first ≤ ubAux t val first len ∧ ubAux t val first len ≤ first + len := by
  induction len using Nat.strong_induction_on generalizing first with
  | _ len ih =>
    rw [ubAux_eq]
    by_cases h : len = 0
    · simp [h]
    · simp only [h, if_false]
      have hhalf : len / 2 < len := Nat.div_lt_self (Nat.pos_of_ne_zero h) one_lt_two
      by_cases hc : val < t.getD (first + len / 2) 0
      · simp only [hc, if_true]
        have := ih (len / 2) hhalf first
        omega
      · simp only [hc, if_false]
        have := ih (len - len / 2 - 1) (by omega) (first + len / 2 + 1)
        omega

/-- In a nondecreasing list, a predicate that is downward closed along `≤`
holds exactly on the first `countP` positions. -/
theorem sorted_getD_iff_lt_countP (t : List Nat) (hs : t.Sorted (· ≤ ·))
    (p : Nat → Bool) (hmono : ∀ a b : Nat, a ≤ b → p b = true → p a = true)
    (i : Nat) (hi : i < t.length) :
    (p (t.getD i 0) = true ↔ i < t.countP p) := by
  induction t generalizing i with
  | nil => simp at hi
  | cons x xs ih =>
      rw [List.sorted_cons] at hs
      obtain ⟨hx, hxs⟩ := hs
      rw [List.countP_cons]
      by_cases hpx : p x = true
      · cases i with
        | zero =>
            simp only [List.getD_cons_zero, hpx, if_true, true_iff]
            omega
        | succ i =>
            rw [List.length_cons] at hi
            simp only [List.getD_cons_succ, hpx, if_true]
            rw [ih hxs i (by omega)]
            omega
      · have hzero : xs.countP p = 0 := by
          apply List.countP_eq_zero.mpr
          intro y hy hpy
          exact hpx (hmono x y (hx y hy) hpy)
        have hpxf : p x = false := by
          cases hpb : p x
          · rfl
          · exact absurd hpb hpx
        cases i with
        | zero => simp [hpxf, hzero]
        | succ i =>
            rw [List.length_cons] at hi
            have hi' : i < xs.length := by omega
            have hmem : xs.getD i 0 ∈ xs := by
              rw [List.getD_eq_getElem xs 0 hi']
              exact xs.getElem_mem hi'
            have hfalse : p (xs.getD i 0) = false := by
              cases hpb : p (xs.getD i 0)
              · rfl
              · exact absurd (hmono x _ (hx _ hmem) hpb) hpx
            simp only [List.getD, List.get?_eq_getElem?] at hfalse
            simp [hfalse, hpxf, hzero]

/-- On a sorted list, the `lower_bound` search lands on the count of
elements strictly below `val`. -/
theorem lbAux_sorted (t : List Nat) (hs : t.Sorted (· ≤ ·)) (val : Nat)
    (len first : Nat) (hlen : first + len ≤ t.length)
    (h1 : first ≤ t.countP (fun x => decide (x < val)))
    (h2 : t.countP (fun x => decide (x < val)) ≤ first + len) :
    lbAux t val first len = t.countP (fun x => decide (x < val)) := by
  induction len using Nat.strong_induction_on generalizing first with
  | _ len ih =>
    rw [lbAux_eq]
    by_cases h : len = 0
    · simp only [h, if_true]; omega
    · simp only [h, if_false]
      have hhalf : len / 2 < len := Nat.div_lt_self (Nat.pos_of_ne_zero h) one_lt_two
      have hmid : first + len / 2 < t.length := by omega
      have hchar := sorted_getD_iff_lt_countP t hs (fun x => decide (x < val))
        (by intro a b hab hb; simp only [decide_eq_true_eq] at *; omega)
        (first + len / 2) hmid
      simp only [decide_eq_true_eq] at hchar
      by_cases hc : t.getD (first + len / 2) 0 < val
      · simp only [hc, if_true]
        have hlt : first + len / 2 < t.countP (fun x => decide (x < val)) := hchar.mp hc
        exact ih (len - len / 2 - 1) (by omega) (first + len / 2 + 1)
          (by omega) (by omega) (by omega)
      · simp only [hc, if_false]
        have hge : ¬ (first + len / 2 < t.countP (fun x => decide (x < val))) :=
          fun hlt => hc (hchar.mpr hlt)
        exact ih (len / 2) hhalf first (by omega) h1 (by omega)

/-- On a sorted list, the `upper_bound` search lands on the count of
elements at most `val`. -/
theorem ubAux_sorted (t : List Nat) (hs : t.Sorted (· ≤ ·)) (val : Nat)
    (len first : Nat) (hlen : first + len ≤ t.length)
    (h1 : first ≤ t.countP (fun x => decide (x ≤ val)))
    (h2 : t.countP (fun x => decide (x ≤ val)) ≤ first + len) :
    ubAux t val first len = t.countP (fun x => decide (x ≤ val)) := by
  induction len using Nat.strong_induction_on generalizing first with
  | _ len ih =>
    rw [ubAux_eq]
    by_cases h : len = 0
    · simp only [h, if_true]; omega
    · simp only [h, if_false]
      have hhalf : len / 2 < len := Nat.div_lt_self (Nat.pos_of_ne_zero h) one_lt_two
      have hmid : first + len / 2 < t.length := by omega
      have hchar := sorted_getD_iff_lt_countP t hs (fun x => decide (x ≤ val))
        (by intro a b hab hb; simp only [decide_eq_true_eq] at *; omega)
        (first + len / 2) hmid
      simp only [decide_eq_true_eq] at hchar
      by_cases hc : val < t.getD (first + len / 2) 0
      · simp only [hc, if_true]
        have hge : ¬ (first + len / 2 < t.countP (fun x => decide (x ≤ val))) :=
          fun hlt => absurd (hchar.mpr hlt) (by omega)
        exact ih (len / 2) hhalf first (by omega) h1 (by omega)
      · simp only [hc, if_false]
        have hle : t.getD (first + len / 2) 0 ≤ val := by omega
        have hlt : first + len / 2 < t.countP (fun x => decide (x ≤ val)) := hchar.mp hle
        exact ih (len - len / 2 - 1) (by omega) (first + len / 2 + 1)
          (by omega) (by omega) (by omega)

/-- When no element of the scanned range lies in `[s, e]`, the two searches
take identical branches at every probe and land on the same index. -/
theorem lbAux_eq_ubAux_of_no_match (t : List Nat) (s e : Nat) (hse : s ≤ e)
    (hout : ∀ x ∈ t, x < s ∨ e < x)
    (len first : Nat) (hlen : first + len ≤ t.length) :
    lbAux t s first len = ubAux t e first len := by
  induction len using Nat.strong_induction_on generalizing first with
  | _ len ih =>
    rw [lbAux_eq, ubAux_eq]
    by_cases h : len = 0
    · simp [h]
    · simp only [h, if_false]
      have hhalf : len / 2 < len := Nat.div_lt_self (Nat.pos_of_ne_zero h) one_lt_two
      have hmid : first + len / 2 < t.length := by omega
      have hmem : t.getD (first + len / 2) 0 ∈ t := by
        rw [List.getD_eq_getElem t 0 hmid]
        exact t.getElem_mem hmid
      rcases hout _ hmem with hlo | hhi
      · have h1 : t.getD (first + len / 2) 0 < s := hlo
        have h2 : ¬ (e < t.getD (first + len / 2) 0) := by omega
        simp only [h1, if_true, h2, if_false]
        exact ih (len - len / 2 - 1) (by omega) (first + len / 2 + 1) (by omega)
      · have h1 : ¬ (t.getD (first + len / 2) 0 < s) := by omega
        have h2 : e < t.getD (first + len / 2) 0 := hhi
        simp only [h1, if_false, h2, if_true]
        exact ih (len / 2) hhalf first (by omega)

/-- Model validation: with `s ≤ e` the `lower_bound` result never passes the
`upper_bound` result, so the C++ iterator loop between the two is a
well-defined (possibly empty) range. -/
theorem lbAux_le_ubAux (t : List Nat) (s e : Nat) (hse : s ≤ e)
    (len first : Nat) (hlen : first + len ≤ t.length) :
    lbAux t s first len ≤ ubAux t e first len := by
  induction len using Nat.strong_induction_on generalizing first with
  | _ len ih =>
    rw [lbAux_eq, ubAux_eq]
    by_cases h : len = 0
    · simp [h]
    · simp only [h, if_false]
      have hhalf : len / 2 < len := Nat.div_lt_self (Nat.pos_of_ne_zero h) one_lt_two
      set x := t.getD (first + len / 2) 0 with hx
      by_cases hlo : x < s
      · have h2 : ¬ (e < x) := by omega
        simp only [hlo, if_true, h2, if_false]
        exact ih (len - len / 2 - 1) (by omega) (first + len / 2 + 1) (by omega)
      · by_cases hhi : e < x
        · have h1 : ¬ (x < s) := by omega
          simp only [h1, if_false, hhi, if_true]
          exact ih (len / 2) hhalf first (by omega)
        · simp only [hlo, if_false, hhi, if_true]
          have hl := lbAux_bounds t s first (len / 2)
          have hu := ubAux_bounds t e (first + len / 2 + 1) (len - len / 2 - 1)
          omega

/-- `VALUES_PER_CHUNK` (`columnar_storage.h`, line 14): the chunk capacity. -/
def VALUES_PER_CHUNK : Nat := 1000

/-- `UINT64_MAX`, the initial value of `minTimestamp_`. -/
def UINT64_MAX : Nat := 2 ^ 64 - 1

/-- `ColumnarChunk` (`columnar_storage.h`): parallel columns
`timestamps_`, `values_`, `tags_` plus the `minTimestamp_`,
`maxTimestamp_`, `count_` bookkeeping fields. The value column is
parametric in the carrier used to model `double` (raw 64-bit pattern or
rational, depending on the code path under study). -/
structure ColumnarChunk (V : Type) where
  timestamps : List Nat := []
  values : List V := []
  tags : List TagMap := []
  minTimestamp : Nat := UINT64_MAX
  maxTimestamp : Nat := 0
  count : Nat := 0
deriving DecidableEq

/-- `ColumnarChunk::append` (`columnar_storage.cpp`, lines 33-56), on the
non-throwing path; every caller in the engine guards it with `canAppend`. -/
def ColumnarChunk.append {V : Type} (c : ColumnarChunk V) (t : Nat) (v : V)
    (tg : TagMap) : ColumnarChunk V :=
  { timestamps := c.timestamps ++ [t]
    values := c.values ++ [v]
    tags := c.tags ++ [tg]
    minTimestamp := if c.count = 0 then t else min c.minTimestamp t
    maxTimestamp := if c.count = 0 then t else max c.maxTimestamp t
    count := c.count + 1 }

/-- `ColumnarChunk::canAppend` (`columnar_storage.h`, line 42). -/
def ColumnarChunk.canAppend {V : Type} (c : ColumnarChunk V) : Prop :=
  c.count < VALUES_PER_CHUNK

/-- One ingested row: timestamp, value, tag map. -/
abbrev Row (V : Type) := Nat × V × TagMap

/-- A chunk built by a sequence of `append` calls starting from a fresh
`ColumnarChunk()`. -/
def buildChunk {V : Type} (rows : List (Row V)) : ColumnarChunk V :=
  rows.foldl (fun c r => c.append r.1 r.2.1 r.2.2) {}

/-- `ColumnarChunk::queryTimeRange` (`columnar_storage.cpp`, lines 58-73):
`std::lower_bound` and `std::upper_bound` over the first `count_`
timestamps, then every index from the first iterator to the second. -/
def ColumnarChunk.queryTimeRange {V : Type} (c : ColumnarChunk V)
    (startTime endTime : Nat) : List Nat :=
  let lo := lbAux c.timestamps startTime 0 c.count
  let hi := ubAux c.timestamps endTime 0 c.count
  List.range' lo (hi - lo)

/-- The inner per-row tag check of `ColumnarChunk::queryWithTags`
(`columnar_storage.cpp`, lines 82-91): every queried pair must be present
with an equal value. -/
def tagsContain (row : TagMap) (query : TagMap) : Bool :=
  query.all (fun kv => tagFind row kv.1 == some kv.2)

/-- `ColumnarChunk::queryWithTags` (`columnar_storage.cpp`, lines 75-99):
linear scan over `[0, count_)` keeping the matching indices. -/
def ColumnarChunk.queryWithTags {V : Type} (c : ColumnarChunk V)
    (q : TagMap) : List Nat :=
  (List.range c.count).filter (fun i => tagsContain (c.tags.getD i []) q)

/-- Structural invariants every chunk reachable through `append` satisfies:
the parallel columns have length `count_` and `min/maxTimestamp_` bound
every stored timestamp. -/
structure ChunkWF {V : Type} (c : ColumnarChunk V) : Prop where
  len_ts : c.timestamps.length = c.count
  len_vals : c.values.length = c.count
  len_tags : c.tags.length = c.count
  min_le : ∀ t ∈ c.timestamps, c.minTimestamp ≤ t
  le_max : ∀ t ∈ c.timestamps, t ≤ c.maxTimestamp

theorem chunkWF_empty {V : Type} : ChunkWF ({} : ColumnarChunk V) :=
  ⟨rfl, rfl, rfl, by intro t ht; simp at ht, by intro t ht; simp at ht⟩

theorem chunkWF_append {V : Type} {c : ColumnarChunk V} (h : ChunkWF c)
    (t : Nat) (v : V) (tg : TagMap) : ChunkWF (c.append t v tg) := by
  obtain ⟨h1, h2, h3, h4, h5⟩ := h
  refine ⟨?_, ?_, ?_, ?_, ?_⟩ <;> simp only [ColumnarChunk.append]
  · simp [h1]
  · simp [h2]
  · simp [h3]
  · intro x hx
    rcases List.mem_append.mp hx with hmem | hlast
    · have hne : c.count ≠ 0 := by
        intro h0
        rw [h0] at h1
        rw [List.length_eq_zero.mp h1] at hmem
        simp at hmem
      simp only [hne, if_false]
      exact le_trans (min_le_left _ _) (h4 x hmem)
    · simp only [List.mem_singleton.mp hlast]
      by_cases hz : c.count = 0
      · simp [hz]
      · simp only [hz, if_false]
        exact min_le_right _ _
  · intro x hx
    rcases List.mem_append.mp hx with hmem | hlast
    · have hne : c.count ≠ 0 := by
        intro h0
        rw [h0] at h1
        rw [List.length_eq_zero.mp h1] at hmem
        simp at hmem
      simp only [hne, if_false]
      exact le_trans (h5 x hmem) (le_max_left _ _)
    · simp only [List.mem_singleton.mp hlast]
      by_cases hz : c.count = 0
      · simp [hz]
      · simp only [hz, if_false]
        exact le_max_right _ _

theorem foldl_append_columns {V : Type} (rows : List (Row V))
    (c : ColumnarChunk V) :
    (rows.foldl (fun c r => c.append r.1 r.2.1 r.2.2) c).timestamps
        = c.timestamps ++ rows.map (fun r => r.1)
    ∧ (rows.foldl (fun c r => c.append r.1 r.2.1 r.2.2) c).values
        = c.values ++ rows.map (fun r => r.2.1)
    ∧ (rows.foldl (fun c r => c.append r.1 r.2.1 r.2.2) c).tags
        = c.tags ++ rows.map (fun r => r.2.2)
    ∧ (rows.foldl (fun c r => c.append r.1 r.2.1 r.2.2) c).count
        = c.count + rows.length := by
  induction rows generalizing c with
  | nil => simp
  | cons r rs ih =>
      simp only [List.foldl_cons, List.map_cons, List.length_cons]
      obtain ⟨i1, i2, i3, i4⟩ := ih (c.append r.1 r.2.1 r.2.2)
      refine ⟨?_, ?_, ?_, ?_⟩
      · rw [i1]; simp [ColumnarChunk.append]
      · rw [i2]; simp [ColumnarChunk.append]
      · rw [i3]; simp [ColumnarChunk.append]
      · rw [i4]; simp [ColumnarChunk.append]; ring

theorem buildChunk_timestamps {V : Type} (rows : List (Row V)) :
    (buildChunk rows).timestamps = rows.map (fun r => r.1) := by
  have := foldl_append_columns rows ({} : ColumnarChunk V)
  simpa [buildChunk] using this.1

theorem buildChunk_values {V : Type} (rows : List (Row V)) :
    (buildChunk rows).values = rows.map (fun r => r.2.1) := by
  have := foldl_append_columns rows ({} : ColumnarChunk V)
  simpa [buildChunk] using this.2.1

theorem buildChunk_tags {V : Type} (rows : List (Row V)) :
    (buildChunk rows).tags = rows.map (fun r => r.2.2) := by
  have := foldl_append_columns rows ({} : ColumnarChunk V)
  simpa [buildChunk] using this.2.2.1

theorem buildChunk_count {V : Type} (rows : List (Row V)) :
    (buildChunk rows).count = rows.length := by
  have := foldl_append_columns rows ({} : ColumnarChunk V)
  simpa [buildChunk] using this.2.2.2

theorem chunkWF_foldl {V : Type} (rows : List (Row V)) (c : ColumnarChunk V)
    (h : ChunkWF c) :
    ChunkWF (rows.foldl (fun c r => c.append r.1 r.2.1 r.2.2) c) := by
  induction rows generalizing c with
  | nil => exact h
  | cons r rs ih => exact ih _ (chunkWF_append h r.1 r.2.1 r.2.2)

theorem chunkWF_buildChunk {V : Type} (rows : List (Row V)) :
    ChunkWF (buildChunk rows) :=
  chunkWF_foldl rows {} chunkWF_empty

/-- Sorted-chunk characterisation of `queryTimeRange`: on a chunk whose
timestamps are nondecreasing the binary searches find exactly the
in-range index interval. -/
theorem queryTimeRange_sorted {V : Type} (c : ColumnarChunk V)
    (hwf : ChunkWF c) (hs : c.timestamps.Sorted (· ≤ ·)) (s e : Nat)
    (hse : s ≤ e) :
    c.queryTimeRange s e
      = (List.range c.count).filter
          (fun i => decide (s ≤ c.timestamps.getD i 0)
                    && decide (c.timestamps.getD i 0 ≤ e)) := by
  set t := c.timestamps with ht
  have hlen : t.length = c.count := hwf.len_ts
  have hlb : lbAux t s 0 c.count = t.countP (fun x => decide (x < s)) := by
    apply lbAux_sorted t hs s c.count 0 (by omega)
    · omega
    · have := List.countP_le_length (fun x => decide (x < s)) (l := t)
      omega
  have hub : ubAux t e 0 c.count = t.countP (fun x => decide (x ≤ e)) := by
    apply ubAux_sorted t hs e c.count 0 (by omega)
    · omega
    · have := List.countP_le_length (fun x => decide (x ≤ e)) (l := t)
      omega
  set cLo := t.countP (fun x => decide (x < s)) with hcLo
  set cHi := t.countP (fun x => decide (x ≤ e)) with hcHi
  have hLoLen : cLo ≤ t.length := List.countP_le_length _
  have hHiLen : cHi ≤ t.length := List.countP_le_length _
  have hiff : ∀ i, i < c.count →
      ((s ≤ t.getD i 0 ∧ t.getD i 0 ≤ e) ↔ (cLo ≤ i ∧ i < cHi)) := by
    intro i hi
    have hi' : i < t.length := by omega
    have h1 := sorted_getD_iff_lt_countP t hs (fun x => decide (x < s))
      (by intro a b hab hb; simp only [decide_eq_true_eq] at *; omega) i hi'
    have h2 := sorted_getD_iff_lt_countP t hs (fun x => decide (x ≤ e))
      (by intro a b hab hb; simp only [decide_eq_true_eq] at *; omega) i hi'
    simp only [decide_eq_true_eq] at h1 h2
    rw [← hcLo] at h1
    rw [← hcHi] at h2
    constructor
    · rintro ⟨hge, hle⟩
      refine ⟨?_, h2.mp hle⟩
      by_contra hcon
      have := h1.mpr (by omega)
      omega
    · rintro ⟨hge, hlt⟩
      refine ⟨?_, h2.mpr hlt⟩
      by_contra hcon
      have := h1.mp (by omega)
      omega
  have hLoHi : cLo ≤ cHi := by
    have h := lbAux_le_ubAux t s e hse c.count 0 (by omega)
    rw [hlb, hub] at h
    exact h
  rw [ColumnarChunk.queryTimeRange]
  simp only [← ht, hlb, hub, ← hcLo, ← hcHi]
  apply List.eq_of_perm_of_sorted (r := (· < ·))
  · rw [List.perm_ext_iff_of_nodup (List.nodup_range' _ _)
      ((List.nodup_range _).filter _)]
    intro a
    rw [List.mem_range'_1, List.mem_filter, List.mem_range]
    constructor
    · rintro ⟨hge, hlt⟩
      have ha : a < c.count := by omega
      refine ⟨ha, ?_⟩
      have := (hiff a ha).mpr ⟨hge, by omega⟩
      simp only [Bool.and_eq_true, decide_eq_true_eq]
      exact this
    · rintro ⟨ha, hp⟩
      simp only [Bool.and_eq_true, decide_eq_true_eq] at hp
      have := (hiff a ha).mp hp
      omega
  · exact List.pairwise_lt_range' _ _
  · exact (List.sorted_lt_range _).filter _

/-- C1 (counterexample): the claim that `queryTimeRange(start, end)` returns
exactly the indices with `start ≤ timestamps[i] ≤ end` for every append
sequence fails on a chunk with unsorted timestamps. Appending timestamps
`10` then `5` and querying `[5, 5]` returns indices `[0, 1]`, although only
index `1` carries a timestamp in the range — the binary searches of the
source assume a sorted column. -/
theorem c1_counterexample :
    (buildChunk [(10, 0, ([] : TagMap)), (5, 0, ([] : TagMap))]
        : ColumnarChunk Nat).queryTimeRange 5 5 = [0, 1]
    ∧ (List.range (buildChunk [(10, 0, ([] : TagMap)), (5, 0, ([] : TagMap))]
          : ColumnarChunk Nat).count).filter
        (fun i => decide (5 ≤ ((buildChunk [(10, 0, ([] : TagMap)),
              (5, 0, ([] : TagMap))] : ColumnarChunk Nat).timestamps.getD i 0))
          && decide (((buildChunk [(10, 0, ([] : TagMap)),
              (5, 0, ([] : TagMap))] : ColumnarChunk Nat).timestamps.getD i 0) ≤ 5))
        = [1] := by
  constructor <;> decide

/-- C1 (amended): for every chunk built by a sequence of appends whose
timestamps arrive in nondecreasing order, and every `start ≤ end`,
`queryTimeRange(start, end)` returns exactly the indices `i` with
`start ≤ timestamps[i] ≤ end`, in append order and inclusive on both
ends. (The unsorted case of the original claim is refuted by
`c1_counterexample`.) -/
theorem c1_theorem (rows : List (Row ℚ))
    (hs : (rows.map (fun r => r.1)).Sorted (· ≤ ·)) (s e : Nat) (hse : s ≤ e) :
    (buildChunk rows).queryTimeRange s e
      = (List.range rows.length).filter
          (fun i => decide (s ≤ (rows.map (fun r => r.1)).getD i 0)
                    && decide ((rows.map (fun r => r.1)).getD i 0 ≤ e)) := by
  have hts := buildChunk_timestamps rows
  have hcount := buildChunk_count rows
  rw [queryTimeRange_sorted (buildChunk rows) (chunkWF_buildChunk rows)
      (by rw [hts]; exact hs) s e hse, hts, hcount]

/-- Witness for `c1_theorem` at the sorted two-row chunk with timestamps
`[1, 3]` and the query range `[1, 3]`. -/
theorem c1_witness :
    (buildChunk [(1, (0 : ℚ), ([] : TagMap)), (3, 0, [])]).queryTimeRange 1 3
      = (List.range ([(1, (0 : ℚ), ([] : TagMap)), (3, 0, [])].length)).filter
          (fun i => decide (1 ≤ (([(1, (0 : ℚ), ([] : TagMap)), (3, 0, [])].map
                (fun r => r.1)).getD i 0))
            && decide ((([(1, (0 : ℚ), ([] : TagMap)), (3, 0, [])].map
                (fun r => r.1)).getD i 0) ≤ 3)) :=
  c1_theorem [(1, 0, []), (3, 0, [])] (by decide) 1 3 (by decide)

/-- `std::numeric_limits<double>::max()`, exactly representable as a
rational: the seed of the scalar `min` folds. -/
def doubleMax : ℚ := (2 ^ 53 - 1) * 2 ^ 971

/-- `std::numeric_limits<double>::lowest()`, the seed of the `max` folds. -/
def doubleLowest : ℚ := -doubleMax

/-- `ColumnarChunk::sum` (`columnar_storage.cpp`, lines 141-170) over the
rational model of `double`. The indices returned by `queryTimeRange` are a
contiguous ascending interval, so the source's contiguity test always
succeeds on a nonempty result; its SIMD branch (whose scalar fallback at
lines 132-137 iterates `[front, back+1)`, the same interval) and its
per-index loop both add exactly the values at those indices left to
right. The AVX2 specialisation differs only in the association order of
the additions, which the exact rational model identifies. -/
def ColumnarChunk.sum (c : ColumnarChunk ℚ) (startTime endTime : Nat) : ℚ :=
  let indices := c.queryTimeRange startTime endTime
  if indices.isEmpty then 0
  else (indices.map (fun i => c.values.getD i 0)).sum

/-- `ColumnarChunk::avg` (`columnar_storage.cpp`, lines 172-180):
`sum / indices.size()` on a nonempty result, else `0.0`. -/
def ColumnarChunk.avg (c : ColumnarChunk ℚ) (startTime endTime : Nat) : ℚ :=
  let indices := c.queryTimeRange startTime endTime
  if indices.isEmpty then 0
  else c.sum startTime endTime / indices.length

/-- `ColumnarChunk::min` (`columnar_storage.cpp`, lines 222-251): `0.0` on
an empty result, otherwise a fold of `std::min` seeded with
`numeric_limits<double>::max()` over the selected values (the SIMD branch
and the per-index loop fold the same contiguous index interval). -/
def ColumnarChunk.min (c : ColumnarChunk ℚ) (startTime endTime : Nat) : ℚ :=
  let indices := c.queryTimeRange startTime endTime
  if indices.isEmpty then 0
  else indices.foldl (fun m i => Min.min m (c.values.getD i 0)) doubleMax

/-- `ColumnarChunk::max` (`columnar_storage.cpp`, lines 293-322): `0.0` on
an empty result, otherwise a fold of `std::max` seeded with
`numeric_limits<double>::lowest()`. -/
def ColumnarChunk.max (c : ColumnarChunk ℚ) (startTime endTime : Nat) : ℚ :=
  let indices := c.queryTimeRange startTime endTime
  if indices.isEmpty then 0
  else indices.foldl (fun m i => Max.max m (c.values.getD i 0)) doubleLowest

/-- A time range that matches none of the stored timestamps produces an
empty `queryTimeRange` result even on an unsorted column: both binary
searches take identical branches at every probe. -/
theorem queryTimeRange_empty_of_no_match {V : Type} (c : ColumnarChunk V)
    (hwf : ChunkWF c) (s e : Nat) (hse : s ≤ e)
    (hout : ∀ t ∈ c.timestamps, ¬ (s ≤ t ∧ t ≤ e)) :
    c.queryTimeRange s e = [] := by
  have hout' : ∀ x ∈ c.timestamps, x < s ∨ e < x := by
    intro x hx
    have := hout x hx
    omega
  have heq := lbAux_eq_ubAux_of_no_match c.timestamps s e hse hout'
    c.count 0 (by have := hwf.len_ts; omega)
  rw [ColumnarChunk.queryTimeRange]
  simp only [heq, Nat.sub_self]
  rfl

theorem chunk_aggregates_zero_of_no_match (c : ColumnarChunk ℚ)
    (hwf : ChunkWF c) (s e : Nat) (hse : s ≤ e)
    (hout : ∀ t ∈ c.timestamps, ¬ (s ≤ t ∧ t ≤ e)) :
    c.sum s e = 0 ∧ c.min s e = 0 ∧ c.max s e = 0 ∧ c.avg s e = 0 := by
  have hempty := queryTimeRange_empty_of_no_match c hwf s e hse hout
  refine ⟨?_, ?_, ?_, ?_⟩ <;>
    simp [ColumnarChunk.sum, ColumnarChunk.min, ColumnarChunk.max,
      ColumnarChunk.avg, hempty]

/-- `TimePoint` (`waffledb.h`): one ingested sample. -/
structure TimePoint (V : Type) where
  metric : Str
  timestamp : Nat
  value : V
  tags : TagMap
deriving DecidableEq

/-- Association-list lookup standing in for `unordered_map::find` on the
engine's per-metric maps. -/
def alookup {α : Type} (l : List (Str × α)) (k : Str) : Option α :=
  (l.find? (fun p => p.1 == k)).map (fun p => p.2)

/-- `std::set_intersection` over two ascending index sequences
(`waffledb.cpp`, lines 449-451). -/
def intersectSorted : List Nat → List Nat → List Nat
  | [], _ => []
  | _ :: _, [] => []
  | a :: as, b :: bs =>
      if a < b then intersectSorted as (b :: bs)
      else if b < a then intersectSorted (a :: as) bs
      else a :: intersectSorted as bs
termination_by l1 l2 => l1.length + l2.length

/-- The in-memory state owned by `TimeSeriesDatabase::Impl`
(`waffledb.cpp`, lines 113-131): per-metric sealed chunks
(`metricChunks_`), per-metric active chunk (`activeChunks_`) and the
metric registry (`metrics_`). -/
structure EngineState (V : Type) where
  activeChunks : List (Str × ColumnarChunk V)
  metricChunks : List (Str × List (ColumnarChunk V))
  metrics : List Str

/-- The per-chunk body of `TimeSeriesDatabase::Impl::query`
(`waffledb.cpp`, lines 419-523): prune by `[minTimestamp, maxTimestamp]`
overlap, compute the time indices, intersect with the tag indices when a
tag filter is present, and emit one `TimePoint` per surviving index. -/
def emitChunk {V : Type} [Inhabited V] (m : Str) (c : ColumnarChunk V)
    (s e : Nat) (tq : TagMap) : List (TimePoint V) :=
  if c.minTimestamp ≤ e ∧ s ≤ c.maxTimestamp then
    let timeIdx := c.queryTimeRange s e
    let idx := if tq.isEmpty then timeIdx
               else intersectSorted timeIdx (c.queryWithTags tq)
    idx.map (fun i =>
      { metric := m
        timestamp := c.timestamps.getD i 0
        value := c.values.getD i default
        tags := c.tags.getD i [] })
  else []

/-- `TimeSeriesDatabase::Impl::query` (`waffledb.cpp`, lines 410-533):
visit the active chunk (when present and nonempty) then the sealed
chunks, and sort the union ascending by timestamp. `std::sort` with the
`a.timestamp < b.timestamp` comparator produces some
timestamp-nondecreasing permutation; the model fixes insertion sort as
one such permutation. -/
def EngineState.query {V : Type} [Inhabited V] (st : EngineState V)
    (m : Str) (s e : Nat) (tq : TagMap) : List (TimePoint V) :=
  let activeRes :=
    match alookup st.activeChunks m with
    | some c => if 0 < c.count then emitChunk m c s e tq else []
    | none => []
  let sealedRes := ((alookup st.metricChunks m).getD []).flatMap
    (fun c => emitChunk m c s e tq)
  List.insertionSort (fun a b => a.timestamp ≤ b.timestamp)
    (activeRes ++ sealedRes)

/-- `TimeSeriesDatabase::Impl::sum` (`waffledb.cpp`, lines 535-567): fold
the per-chunk sums of the active then sealed chunks. The `tags` argument
is ignored by the source (its parameter is commented out). -/
def EngineState.sum (st : EngineState ℚ) (m : Str) (s e : Nat)
    (tq : TagMap) : ℚ :=
  let fromActive :=
    match alookup st.activeChunks m with
    | some c => if 0 < c.count then c.sum s e else 0
    | none => 0
  ((alookup st.metricChunks m).getD []).foldl
    (fun acc c => acc + c.sum s e) fromActive

/-- `TimeSeriesDatabase::Impl::avg` (`waffledb.cpp`, lines 569-612):
accumulate per-chunk sum and index count, divide once at the end, `0.0`
when the count is zero. The `tags` argument is ignored by the source. -/
def EngineState.avg (st : EngineState ℚ) (m : Str) (s e : Nat)
    (tq : TagMap) : ℚ :=
  let step := fun (acc : ℚ × Nat) (c : ColumnarChunk ℚ) =>
    let indices := c.queryTimeRange s e
    if indices.isEmpty then acc
    else (acc.1 + c.sum s e, acc.2 + indices.length)
  let init : ℚ × Nat :=
    match alookup st.activeChunks m with
    | some c => if 0 < c.count then step (0, 0) c else (0, 0)
    | none => (0, 0)
  let r := ((alookup st.metricChunks m).getD []).foldl step init
  if 0 < r.2 then r.1 / r.2 else 0

/-- `TimeSeriesDatabase::Impl::min` (`waffledb.cpp`, lines 614-665): track
the least per-chunk minimum over chunks with a nonempty index set, `0.0`
when none was found. The `tags` argument is ignored by the source. -/
def EngineState.min (st : EngineState ℚ) (m : Str) (s e : Nat)
    (tq : TagMap) : ℚ :=
  let step := fun (acc : ℚ × Bool) (c : ColumnarChunk ℚ) =>
    let indices := c.queryTimeRange s e
    if indices.isEmpty then acc
    else
      let chunkMin := c.min s e
      if chunkMin < acc.1 then (chunkMin, true) else acc
  let init : ℚ × Bool :=
    match alookup st.activeChunks m with
    | some c => if 0 < c.count then step (doubleMax, false) c
                else (doubleMax, false)
    | none => (doubleMax, false)
  let r := ((alookup st.metricChunks m).getD []).foldl step init
  if r.2 then r.1 else 0

/-- `TimeSeriesDatabase::Impl::max` (`waffledb.cpp`, lines 667-718): track
the greatest per-chunk maximum over chunks with a nonempty index set,
`0.0` when none was found. The `tags` argument is ignored by the source. -/
def EngineState.max (st : EngineState ℚ) (m : Str) (s e : Nat)
    (tq : TagMap) : ℚ :=
  let step := fun (acc : ℚ × Bool) (c : ColumnarChunk ℚ) =>
    let indices := c.queryTimeRange s e
    if indices.isEmpty then acc
    else
      let chunkMax := c.max s e
      if acc.1 < chunkMax then (chunkMax, true) else acc
  let init : ℚ × Bool :=
    match alookup st.activeChunks m with
    | some c => if 0 < c.count then step (doubleLowest, false) c
                else (doubleLowest, false)
    | none => (doubleLowest, false)
  let r := ((alookup st.metricChunks m).getD []).foldl step init
  if r.2 then r.1 else 0

/-- All timestamps stored for a metric, across the active and sealed
chunks. -/
def EngineState.storedTimestamps {V : Type} (st : EngineState V)
    (m : Str) : List Nat :=
  (match alookup st.activeChunks m with
   | some c => c.timestamps
   | none => []) ++
  ((alookup st.metricChunks m).getD []).flatMap (fun c => c.timestamps)

/-- Every chunk reachable in an engine state satisfies the chunk
invariants: the engine only ever mutates chunks through `append`. -/
def EngineWF {V : Type} (st : EngineState V) : Prop :=
  (∀ p ∈ st.activeChunks, ChunkWF p.2) ∧
  (∀ p ∈ st.metricChunks, ∀ c ∈ p.2, ChunkWF c)

theorem alookup_mem {α : Type} {l : List (Str × α)} {k : Str} {a : α}
    (h : alookup l k = some a) : ∃ p ∈ l, p.2 = a ∧ p.1 = k := by
  rw [alookup] at h
  cases hf : l.find? (fun p => p.1 == k) with
  | none => rw [hf] at h; simp at h
  | some p =>
      rw [hf] at h
      have h2 : p.2 = a := by simpa using h
      refine ⟨p, List.mem_of_find?_eq_some hf, h2, ?_⟩
      have := List.find?_some hf
      exact eq_of_beq this

theorem foldl_fixed {α β : Type} {l : List β} {step : α → β → α}
    (h : ∀ a : α, ∀ c ∈ l, step a c = a) (a : α) : l.foldl step a = a := by
  induction l generalizing a with
  | nil => rfl
  | cons x xs ih =>
      rw [List.foldl_cons, h a x (List.mem_cons_self x xs)]
      exact ih (fun a c hc => h a c (List.mem_cons_of_mem x hc)) a

/-- C9: the engine aggregates `sum`, `avg`, `min`, `max` never read their
`tags` argument (the parameter is commented out in `waffledb.cpp`): any
two tag maps produce identical results on every state. -/
theorem c9_theorem (st : EngineState ℚ) (m : Str) (s e : Nat)
    (t1 t2 : TagMap) :
    st.sum m s e t1 = st.sum m s e t2
    ∧ st.avg m s e t1 = st.avg m s e t2
    ∧ st.min m s e t1 = st.min m s e t2
    ∧ st.max m s e t1 = st.max m s e t2 :=
  ⟨rfl, rfl, rfl, rfl⟩

/-- C8: on a time range `[s, e]` that matches no stored timestamp of the
metric, every aggregate returns `0.0`, both at the chunk level and at the
engine level (which folds over sealed and active chunks). -/
theorem c8_theorem (st : EngineState ℚ) (hwf : EngineWF st) (m : Str)
    (s e : Nat) (hse : s ≤ e)
    (hnone : ∀ t ∈ st.storedTimestamps m, ¬ (s ≤ t ∧ t ≤ e)) :
    (st.sum m s e [] = 0 ∧ st.min m s e [] = 0 ∧ st.max m s e [] = 0
      ∧ st.avg m s e [] = 0)
    ∧ ∀ c : ColumnarChunk ℚ, ChunkWF c →
        (∀ t ∈ c.timestamps, ¬ (s ≤ t ∧ t ≤ e)) →
        c.sum s e = 0 ∧ c.min s e = 0 ∧ c.max s e = 0 ∧ c.avg s e = 0 := by
  refine ⟨?_, fun c hc hno => chunk_aggregates_zero_of_no_match c hc s e hse hno⟩
  have hsealedEmpty : ∀ c ∈ (alookup st.metricChunks m).getD [],
      c.queryTimeRange s e = [] := by
    intro c hc
    rcases hm : alookup st.metricChunks m with _ | chunks
    · rw [hm] at hc; simp at hc
    · rw [hm] at hc
      simp only [Option.getD_some] at hc
      obtain ⟨p, hp, hp2, _⟩ := alookup_mem hm
      apply queryTimeRange_empty_of_no_match c (hwf.2 p hp c (hp2 ▸ hc)) s e hse
      intro t ht
      apply hnone
      rw [EngineState.storedTimestamps]
      apply List.mem_append_right
      rw [hm]
      simp only [Option.getD_some]
      exact List.mem_flatMap.mpr ⟨c, hc, ht⟩
  have hsealedSum : ∀ c ∈ (alookup st.metricChunks m).getD [],
      c.sum s e = 0 := by
    intro c hc
    simp [ColumnarChunk.sum, hsealedEmpty c hc]
  have hactiveEmpty : ∀ c : ColumnarChunk ℚ, alookup st.activeChunks m = some c →
      c.queryTimeRange s e = [] := by
    intro c hm
    obtain ⟨p, hp, hp2, _⟩ := alookup_mem hm
    apply queryTimeRange_empty_of_no_match c (hp2 ▸ hwf.1 p hp) s e hse
    intro t ht
    apply hnone
    rw [EngineState.storedTimestamps]
    apply List.mem_append_left
    rw [hm]
    exact ht
  refine ⟨?_, ?_, ?_, ?_⟩
  · rcases hm : alookup st.activeChunks m with _ | c
    · simp only [EngineState.sum, hm]
      rw [foldl_fixed (fun a c hc => by rw [hsealedSum c hc]; ring)]
    · simp only [EngineState.sum, hm]
      rw [foldl_fixed (fun a c hc => by rw [hsealedSum c hc]; ring)]
      simp [ColumnarChunk.sum, hactiveEmpty c hm]
  · rcases hm : alookup st.activeChunks m with _ | c
    · simp only [EngineState.min, hm]
      rw [foldl_fixed (fun a c hc => by simp [hsealedEmpty c hc])]
      simp
    · simp only [EngineState.min, hm]
      rw [foldl_fixed (fun a c hc => by simp [hsealedEmpty c hc])]
      simp [hactiveEmpty c hm]
  · rcases hm : alookup st.activeChunks m with _ | c
    · simp only [EngineState.max, hm]
      rw [foldl_fixed (fun a c hc => by simp [hsealedEmpty c hc])]
      simp
    · simp only [EngineState.max, hm]
      rw [foldl_fixed (fun a c hc => by simp [hsealedEmpty c hc])]
      simp [hactiveEmpty c hm]
  · rcases hm : alookup st.activeChunks m with _ | c
    · simp only [EngineState.avg, hm]
      rw [foldl_fixed (fun a c hc => by simp [hsealedEmpty c hc])]
      simp
    · simp only [EngineState.avg, hm]
      rw [foldl_fixed (fun a c hc => by simp [hsealedEmpty c hc])]
      simp [hactiveEmpty c hm]

/-- A concrete one-metric engine state (active chunk holding one row at
timestamp 10) used to witness the aggregate theorems. -/
def engineW8 : EngineState ℚ :=
  { activeChunks := [([99], buildChunk [(10, 5, [])])]
    metricChunks := []
    metrics := [[99]] }

theorem engineW8_wf : EngineWF engineW8 :=
  ⟨by intro p hp
      simp only [engineW8, List.mem_singleton] at hp
      subst hp
      exact chunkWF_buildChunk _,
   by intro p hp; simp [engineW8] at hp⟩

/-- Witness for `c8_theorem`: the state `engineW8` and the empty range
`[1, 2]`. -/
theorem c8_witness :
    (1 : Nat) ≤ 2 ∧
    ((engineW8.sum [99] 1 2 [] = 0 ∧ engineW8.min [99] 1 2 [] = 0
        ∧ engineW8.max [99] 1 2 [] = 0 ∧ engineW8.avg [99] 1 2 [] = 0)
      ∧ ∀ c : ColumnarChunk ℚ, ChunkWF c →
          (∀ t ∈ c.timestamps, ¬ (1 ≤ t ∧ t ≤ 2)) →
          c.sum 1 2 = 0 ∧ c.min 1 2 = 0 ∧ c.max 1 2 = 0 ∧ c.avg 1 2 = 0) :=
  ⟨by norm_num,
   c8_theorem engineW8 engineW8_wf [99] 1 2 (by norm_num) (by decide)⟩

theorem sum_map_flatMap {α β : Type} (l : List α) (g : α → List β)
    (f : β → ℚ) :
    ((l.flatMap g).map f).sum
      = (l.map (fun c => ((g c).map f).sum)).sum := by
  induction l with
  | nil => rfl
  | cons x xs ih => simp [List.flatMap_cons, ih]

theorem foldl_add_sum (l : List (ColumnarChunk ℚ)) (f : ColumnarChunk ℚ → ℚ)
    (a : ℚ) : l.foldl (fun acc c => acc + f c) a = a + (l.map f).sum := by
  induction l generalizing a with
  | nil => simp
  | cons x xs ih => simp [List.foldl_cons, ih]; ring

/-- The values emitted for one chunk by the untagged query path sum to the
chunk's `sum` aggregate: the query's min/max pruning only skips chunks
whose aggregate is zero, and both walk the same `queryTimeRange` index
interval. -/
theorem sum_map_insertionSort (l : List (TimePoint ℚ)) (f : TimePoint ℚ → ℚ) :
    ((List.insertionSort (fun a b => a.timestamp ≤ b.timestamp) l).map f).sum
      = (l.map f).sum :=
  ((List.perm_insertionSort
    (fun a b : TimePoint ℚ => a.timestamp ≤ b.timestamp) l).map f).sum_eq

theorem emitChunk_value_sum (m : Str) (c : ColumnarChunk ℚ)
    (hwf : ChunkWF c) (s e : Nat) (hse : s ≤ e) :
    ((emitChunk m c s e []).map (fun p => p.value)).sum = c.sum s e := by
  rw [emitChunk]
  by_cases hp : c.minTimestamp ≤ e ∧ s ≤ c.maxTimestamp
  · rw [if_pos hp]
    simp only [List.isEmpty_nil, if_true, List.map_map]
    rw [ColumnarChunk.sum]
    by_cases hempty : (c.queryTimeRange s e).isEmpty
    · rw [List.isEmpty_iff] at hempty
      simp [hempty]
    · simp only [hempty, if_false]
      refine congrArg List.sum ?_
      apply List.map_congr_left
      intro i _
      rfl
  · rw [if_neg hp]
    simp only [List.map_nil, List.sum_nil]
    have hnone : ∀ t ∈ c.timestamps, ¬ (s ≤ t ∧ t ≤ e) := by
      intro t ht
      have h1 := hwf.min_le t ht
      have h2 := hwf.le_max t ht
      omega
    have := queryTimeRange_empty_of_no_match c hwf s e hse hnone
    rw [ColumnarChunk.sum]
    simp [this]

/-- C6: on every engine state whose chunks satisfy the append invariants
(every reachable state does) and every range with `s ≤ e`, the engine's
`sum` equals the sum of the values returned by the untagged `query` —
exactly, in the rational model that abstracts floating-point
association. This also covers unsorted chunks: both paths consume the
same `queryTimeRange` intervals, and pruned chunks contribute zero. -/
theorem c6_theorem (st : EngineState ℚ) (hwf : EngineWF st) (m : Str)
    (s e : Nat) (hse : s ≤ e) :
    st.sum m s e [] = ((st.query m s e []).map (fun p => p.value)).sum := by
  have hsealed : ∀ c ∈ (alookup st.metricChunks m).getD [],
      ((emitChunk m c s e []).map (fun p => p.value)).sum = c.sum s e := by
    intro c hc
    rcases hm : alookup st.metricChunks m with _ | chunks
    · rw [hm] at hc; simp at hc
    · rw [hm] at hc
      simp only [Option.getD_some] at hc
      obtain ⟨p, hp, hp2, _⟩ := alookup_mem hm
      exact emitChunk_value_sum m c (hwf.2 p hp c (hp2 ▸ hc)) s e hse
  rw [EngineState.query, sum_map_insertionSort, List.map_append,
    List.sum_append]
  simp only [sum_map_flatMap]
  rw [List.map_congr_left hsealed]
  rw [EngineState.sum, foldl_add_sum]
  rcases hm : alookup st.activeChunks m with _ | c
  · simp [hm]
  · obtain ⟨p, hp, hp2, _⟩ := alookup_mem hm
    simp only [hm]
    by_cases hcount : 0 < c.count
    · simp only [hcount, if_true]
      rw [emitChunk_value_sum m c (hp2 ▸ hwf.1 p hp) s e hse]
    · simp [hcount]

/-- Witness for `c6_theorem`: the state `engineW8` and the range
`[0, 20]`, which contains its single stored point. -/
theorem c6_witness :
    engineW8.sum [99] 0 20 []
      = ((engineW8.query [99] 0 20 []).map (fun p => p.value)).sum :=
  c6_theorem engineW8 engineW8_wf [99] 0 20 (by norm_num)

theorem intersectSorted_aux (n : Nat) : ∀ (A B : List Nat),
    A.length + B.length ≤ n → A.Pairwise (· < ·) → B.Pairwise (· < ·) →
    intersectSorted A B = A.filter (fun a => decide (a ∈ B)) := by
  induction n with
  | zero =>
      intro A B hlen _ _
      have hA : A = [] := List.eq_nil_of_length_eq_zero (by omega)
      subst hA
      simp [intersectSorted]
  | succ n ih =>
      intro A B hlen hA hB
      match A, B with
      | [], _ => simp [intersectSorted]
      | a :: as, [] => simp [intersectSorted]
      | a :: as, b :: bs =>
          rw [List.pairwise_cons] at hA hB
          obtain ⟨ha, has⟩ := hA
          obtain ⟨hb, hbs⟩ := hB
          simp only [List.length_cons] at hlen
          rw [intersectSorted]
          by_cases h1 : a < b
          · rw [if_pos h1]
            rw [ih as (b :: bs) (by simp; omega) has (List.pairwise_cons.mpr ⟨hb, hbs⟩)]
            have hnot : ¬ (a ∈ b :: bs) := by
              intro hmem
              rcases List.mem_cons.mp hmem with rfl | hmem
              · omega
              · have := hb a hmem
                omega
            rw [List.filter_cons]
            simp [hnot]
          · rw [if_neg h1]
            by_cases h2 : b < a
            · rw [if_pos h2]
              rw [ih (a :: as) bs (by simp; omega)
                (List.pairwise_cons.mpr ⟨ha, has⟩) hbs]
              apply List.filter_congr
              intro x hx
              have hxb : b < x := by
                rcases List.mem_cons.mp hx with rfl | hx
                · omega
                · have := ha x hx
                  omega
              have : (x ∈ b :: bs) ↔ (x ∈ bs) := by
                rw [List.mem_cons]
                constructor
                · rintro (rfl | h)
                  · omega
                  · exact h
                · exact Or.inr
              simp [this]
            · rw [if_neg h2]
              have hab : a = b := by omega
              subst hab
              rw [ih as bs (by omega) has hbs]
              rw [List.filter_cons]
              have hdec : (decide (a ∈ a :: bs)) = true := by simp
              rw [hdec, if_pos rfl]
              congr 1
              apply List.filter_congr
              intro x hx
              have hxa : a < x := ha x hx
              have : (x ∈ a :: bs) ↔ (x ∈ bs) := by
                rw [List.mem_cons]
                constructor
                · rintro (rfl | h)
                  · omega
                  · exact h
                · exact Or.inr
              simp [this]

/-- `std::set_intersection` of two strictly ascending sequences keeps
exactly the elements of the first that occur in the second. -/
theorem intersectSorted_eq_filter (A B : List Nat)
    (hA : A.Pairwise (· < ·)) (hB : B.Pairwise (· < ·)) :
    intersectSorted A B = A.filter (fun a => decide (a ∈ B)) :=
  intersectSorted_aux (A.length + B.length) A B le_rfl hA hB

theorem filter_flatMap {α β : Type} (l : List α) (g : α → List β)
    (p : β → Bool) :
    (l.flatMap g).filter p = l.flatMap (fun c => (g c).filter p) := by
  induction l with
  | nil => rfl
  | cons x xs ih => simp [List.flatMap_cons, List.filter_append, ih]

theorem queryTimeRange_pairwise {V : Type} (c : ColumnarChunk V)
    (s e : Nat) : (c.queryTimeRange s e).Pairwise (· < ·) := by
  rw [ColumnarChunk.queryTimeRange]
  exact List.pairwise_lt_range' _ _

theorem queryWithTags_pairwise {V : Type} (c : ColumnarChunk V)
    (T : TagMap) : (c.queryWithTags T).Pairwise (· < ·) := by
  rw [ColumnarChunk.queryWithTags]
  exact (List.sorted_lt_range _).filter _

theorem mem_queryTimeRange_lt_count {V : Type} (c : ColumnarChunk V)
    (s e i : Nat) (h : i ∈ c.queryTimeRange s e) : i < c.count := by
  rw [ColumnarChunk.queryTimeRange] at h
  rw [List.mem_range'_1] at h
  have hlb := lbAux_bounds c.timestamps s 0 c.count
  have hub := ubAux_bounds c.timestamps e 0 c.count
  omega

/-- The tagged emission for one chunk is the tag filter of the untagged
emission: `set_intersection` of the (ascending) time indices with the
(ascending) tag indices keeps exactly the time indices whose row
matches. -/
theorem emitChunk_tagged {V : Type} [Inhabited V] (m : Str)
    (c : ColumnarChunk V) (s e : Nat) (T : TagMap) :
    emitChunk m c s e T
      = (emitChunk m c s e []).filter (fun p => tagsContain p.tags T) := by
  rw [emitChunk, emitChunk]
  by_cases hp : c.minTimestamp ≤ e ∧ s ≤ c.maxTimestamp
  · rw [if_pos hp, if_pos hp]
    simp only [List.isEmpty_nil, if_true]
    by_cases hT : T.isEmpty
    · rw [List.isEmpty_iff] at hT
      subst hT
      simp only [List.isEmpty_nil, if_true]
      have hpred : (fun p : TimePoint V => tagsContain p.tags []) =
          fun _ => true := funext fun _ => rfl
      rw [hpred, List.filter_true]
    · have hTf : T.isEmpty = false := by
        cases h : T.isEmpty
        · rfl
        · exact absurd h hT
      simp only [hTf, Bool.false_eq_true, if_false]
      rw [List.filter_map]
      congr 1
      rw [intersectSorted_eq_filter _ _ (queryTimeRange_pairwise c s e)
        (queryWithTags_pairwise c T)]
      apply List.filter_congr
      intro i hi
      have hic : i < c.count := mem_queryTimeRange_lt_count c s e i hi
      simp only [Function.comp_apply]
      by_cases htc : tagsContain (c.tags.getD i []) T = true
      · rw [htc]
        rw [decide_eq_true_eq]
        rw [ColumnarChunk.queryWithTags, List.mem_filter, List.mem_range]
        exact ⟨hic, htc⟩
      · have htc' : tagsContain (c.tags.getD i []) T = false := by
          cases h : tagsContain (c.tags.getD i []) T
          · rfl
          · exact absurd h htc
        rw [htc']
        rw [decide_eq_false_iff_not]
        rw [ColumnarChunk.queryWithTags, List.mem_filter]
        rintro ⟨_, hpred⟩
        exact htc hpred
  · rw [if_neg hp, if_neg hp]
    rfl

theorem timePoint_le_total {V : Type} :
    IsTotal (TimePoint V) (fun a b => a.timestamp ≤ b.timestamp) :=
  ⟨fun a b => Nat.le_total a.timestamp b.timestamp⟩

theorem timePoint_le_trans {V : Type} :
    IsTrans (TimePoint V) (fun a b => a.timestamp ≤ b.timestamp) :=
  ⟨fun _ _ _ h1 h2 => Nat.le_trans h1 h2⟩

theorem sort_filter_perm (l : List (TimePoint ℚ)) (p : TimePoint ℚ → Bool) :
    (List.insertionSort (fun a b => a.timestamp ≤ b.timestamp)
        (l.filter p)).Perm
      ((List.insertionSort (fun a b => a.timestamp ≤ b.timestamp) l).filter
        p) :=
  (List.perm_insertionSort _ (l.filter p)).trans
    ((List.perm_insertionSort _ l).filter p).symm

/-- C7: the tagged query returns exactly the points of the untagged query
whose tag map contains every queried pair (subset semantics, equality on
values), as a timestamp-sorted sequence; a metric with no chunks yields
the empty result. -/
theorem c7_theorem (st : EngineState ℚ) (m : Str) (s e : Nat) (T : TagMap) :
    (st.query m s e T).Perm
        ((st.query m s e []).filter (fun p => tagsContain p.tags T))
    ∧ (st.query m s e T).Sorted (fun a b => a.timestamp ≤ b.timestamp)
    ∧ (alookup st.activeChunks m = none → alookup st.metricChunks m = none →
        st.query m s e T = []) := by
  refine ⟨?_, ?_, ?_⟩
  · rw [EngineState.query, EngineState.query]
    have hflat : (fun c : ColumnarChunk ℚ => emitChunk m c s e T) =
        fun c => (emitChunk m c s e []).filter
          (fun p => tagsContain p.tags T) :=
      funext fun c => emitChunk_tagged m c s e T
    rw [hflat, ← filter_flatMap]
    rcases hm : alookup st.activeChunks m with _ | c
    · simp only [hm]
      rw [show ([] : List (TimePoint ℚ)) ++
          (((alookup st.metricChunks m).getD []).flatMap
            (fun c => emitChunk m c s e [])).filter
            (fun p => tagsContain p.tags T)
        = ((([] : List (TimePoint ℚ)) ++
            ((alookup st.metricChunks m).getD []).flatMap
              (fun c => emitChunk m c s e [])).filter
            (fun p => tagsContain p.tags T)) from by
          rw [List.filter_append, List.filter_nil]]
      exact sort_filter_perm _ _
    · simp only [hm]
      by_cases hcount : 0 < c.count
      · simp only [hcount, if_true]
        rw [emitChunk_tagged m c s e T, ← List.filter_append]
        exact sort_filter_perm _ _
      · simp only [hcount, if_false]
        rw [show ([] : List (TimePoint ℚ)) ++
            (((alookup st.metricChunks m).getD []).flatMap
              (fun c => emitChunk m c s e [])).filter
              (fun p => tagsContain p.tags T)
          = ((([] : List (TimePoint ℚ)) ++
              ((alookup st.metricChunks m).getD []).flatMap
                (fun c => emitChunk m c s e [])).filter
              (fun p => tagsContain p.tags T)) from by
            rw [List.filter_append, List.filter_nil]]
        exact sort_filter_perm _ _
  · rw [EngineState.query]
    have h1 := timePoint_le_total (V := ℚ)
    have h2 := timePoint_le_trans (V := ℚ)
    exact List.sorted_insertionSort _ _
  · intro h1 h2
    rw [EngineState.query]
    simp [h1, h2]

/-- Witness for `c7_theorem` at the concrete state `engineW8`, a metric
absent from it, and a nonempty tag filter (discharging the inner
implications of the third conjunct). -/
theorem c7_witness :
    engineW8.query [50] 0 5 [([1], [2])] = [] :=
  (c7_theorem engineW8 [50] 0 5 [([1], [2])]).2.2 (by decide) (by decide)

/-- The bytes of the `.chunk` file extension. -/
def chunkExt : Str := [46, 99, 104, 117, 110, 107]

/-- The decimal digits of `std::to_string(id)` as bytes. -/
def natDigits (n : Nat) : Str := (Nat.repr n).toList.map Char.toNat

/-- The chunk file name `<metric>_<id>.chunk` built by
`ColumnarStorageManager::saveChunk` (`columnar_storage.cpp`, line 551);
byte 95 is the ASCII underscore. -/
def chunkFileName (metric : Str) (chunkId : Nat) : Str :=
  metric ++ [95] ++ natDigits chunkId ++ chunkExt

/-- `ColumnarStorageManager::deleteChunks` (`columnar_storage.cpp`, lines
615-624): remove every directory entry whose filename begins with
`<metric>_` (`filename.find(metric + "_") == 0`); the surviving directory
content is the files whose names do not. -/
def deleteChunks (files : List Str) (metric : Str) : List Str :=
  files.filter (fun f => ! (List.isPrefixOf (metric ++ [95]) f))

/-- C10: `deleteMetric(m)` deletes from disk exactly the files whose names
begin with `m` followed by an underscore; in particular, when another
metric is named `m ++ \x22_\x22 ++ suffix`, its sealed chunk files carry
that prefix and are deleted as collateral, while files without the prefix
are all preserved. -/
theorem c10_theorem (files : List Str) (m m2 suffix : Str) (chunkId : Nat)
    (hm2 : m2 = m ++ [95] ++ suffix) :
    (∀ f ∈ deleteChunks files m, ¬ (m ++ [95]) <+: f)
    ∧ (∀ f ∈ files, ¬ (m ++ [95]) <+: f → f ∈ deleteChunks files m)
    ∧ chunkFileName m2 chunkId ∉ deleteChunks files m := by
  refine ⟨?_, ?_, ?_⟩
  · intro f hf
    rw [deleteChunks, List.mem_filter] at hf
    obtain ⟨_, hpred⟩ := hf
    simp only [Bool.not_eq_true'] at hpred
    intro hpre
    rw [← @List.isPrefixOf_iff_prefix _ _ _ (m ++ [95]) f] at hpre
    rw [hpred] at hpre
    exact Bool.false_ne_true hpre
  · intro f hmem hpre
    rw [deleteChunks, List.mem_filter]
    refine ⟨hmem, ?_⟩
    simp only [Bool.not_eq_true']
    cases hb : List.isPrefixOf (m ++ [95]) f
    · rfl
    · exact absurd (List.isPrefixOf_iff_prefix.mp hb) hpre
  · intro hmem
    rw [deleteChunks, List.mem_filter] at hmem
    obtain ⟨_, hpred⟩ := hmem
    have hpre : (m ++ [95]) <+: chunkFileName m2 chunkId := by
      refine ⟨suffix ++ [95] ++ natDigits chunkId ++ chunkExt, ?_⟩
      rw [chunkFileName, hm2]
      simp [List.append_assoc]
    rw [← List.isPrefixOf_iff_prefix] at hpre
    rw [hpre] at hpred
    simp at hpred

/-- Witness for `c10_theorem` at a concrete directory: deleting metric
`"a"` (byte 97) removes its own chunk files and those of metric `"a_b"`
(bytes 97, 95, 98), while the file of the unrelated metric `"c"` (byte
99) survives. -/
theorem c10_witness :
    [97, 95, 98] = [97] ++ [95] ++ [98]
    ∧ ((∀ f ∈ deleteChunks [chunkFileName [97] 0,
            chunkFileName [97, 95, 98] 0, chunkFileName [99] 0] [97],
          ¬ ([97] ++ [95]) <+: f)
      ∧ (∀ f ∈ [chunkFileName [97] 0, chunkFileName [97, 95, 98] 0,
            chunkFileName [99] 0],
          ¬ ([97] ++ [95]) <+: f →
          f ∈ deleteChunks [chunkFileName [97] 0,
            chunkFileName [97, 95, 98] 0, chunkFileName [99] 0] [97])
      ∧ chunkFileName [97, 95, 98] 0 ∉ deleteChunks [chunkFileName [97] 0,
          chunkFileName [97, 95, 98] 0, chunkFileName [99] 0] [97]) :=
  ⟨rfl,
   c10_theorem [chunkFileName [97] 0, chunkFileName [97, 95, 98] 0,
     chunkFileName [99] 0] [97] [97, 95, 98] [98] 0 rfl⟩

/-- The two's-complement reading of a `uint64_t` bit pattern as
`int64_t` (the conversion in `int64_t delta = timestamps[i] -
timestamps[i-1]`, `compression.cpp` line 68). -/
def toSigned64 (n : Nat) : Int :=
  if n < 2 ^ 63 then (n : Int) else (n : Int) - 2 ^ 64

/-- The signed reading of a `w`-byte pattern, as the `int8_t`/`int16_t`/
`int32_t`/`int64_t` loads of `decompressTimestamps`. -/
def signedOfWidth (w : Nat) (n : Nat) : Int :=
  if n < 2 ^ (8 * w - 1) then (n : Int) else (n : Int) - 2 ^ (8 * w)

/-- `std::abs` on `int64_t` as generated on x86-64: negating `INT64_MIN`
overflows back to itself (the C++ standard leaves this undefined; the
model fixes the two's-complement wrap the compiled code performs). -/
def absInt64 (d : Int) : Int := if d = -(2 ^ 63) then d else |d|

/-- The unsigned 64-bit difference `timestamps[i] - timestamps[i-1]`
(`compression.cpp` line 68) read as a signed delta. -/
def delta64 (prev cur : Nat) : Int :=
  toSigned64 ((cur + 2 ^ 64 - prev) % 2 ^ 64)

/-- The consecutive deltas of a timestamp column. -/
def deltasOf (ts : List Nat) : List Int :=
  (ts.zip ts.tail).map (fun pq => delta64 pq.1 pq.2)

/-- The cascading width choice of `compressTimestamps`
(`compression.cpp`, lines 74-80): the reassignments `bytesPerDelta = 2`,
`= 4`, `= 8` fire in order on the thresholds `INT8_MAX`, `INT16_MAX`,
`INT32_MAX`. -/
def chooseWidth (maxDelta : Int) : Nat :=
  let b2 := if maxDelta > 127 then 2 else 1
  let b4 := if maxDelta > 32767 then 4 else b2
  if maxDelta > 2147483647 then 8 else b4

/-- `maxDelta` (`compression.cpp`, lines 65-71): a left fold of
`std::max(maxDelta, std::abs(delta))` starting from `0`. -/
def maxDeltaOf (deltas : List Int) : Int :=
  deltas.foldl (fun acc d => Max.max acc (absInt64 d)) 0

/-- One encoded delta: the truncating cast to the chosen signed width
then a `memcpy` of its bytes (`compression.cpp`, lines 85-116). -/
def encDelta (w : Nat) (d : Int) : List Nat :=
  leBytes w (d % (2 ^ (8 * w) : Int)).toNat

/-- One decoded delta and the bytes it consumes: the `switch` of
`decompressTimestamps` (`compression.cpp`, lines 151-183); an unknown
width code matches no case, leaving `delta = 0` and the pointer in
place. -/
def decDelta (w : Nat) (bs : List Nat) : Int × Nat :=
  match w with
  | 1 => (signedOfWidth 1 (leRead 1 bs), 1)
  | 2 => (signedOfWidth 2 (leRead 2 bs), 2)
  | 4 => (signedOfWidth 4 (leRead 4 bs), 4)
  | 8 => (signedOfWidth 8 (leRead 8 bs), 8)
  | _ => (0, 0)

/-- `DeltaEncoding::compressTimestamps` (`compression.cpp`, lines
46-119): empty input yields an empty record; otherwise the first
timestamp (8 bytes), the count (8 bytes, `size_t`), the chosen delta
width (1 byte) and the encoded deltas. -/
def compressTimestamps (ts : List Nat) : List Nat :=
  match ts with
  | [] => []
  | t0 :: _ =>
      let deltas := deltasOf ts
      let bpd := chooseWidth (maxDeltaOf deltas)
      le64 t0 ++ le64 ts.length ++ [bpd] ++ deltas.flatMap (encDelta bpd)

/-- The reconstruction loop of `decompressTimestamps`
(`compression.cpp`, lines 146-187): `current += delta` on a wrapping
`uint64_t`, one push per remaining element. -/
def decodeLoop (bpd : Nat) : Nat → List Nat → Nat → List Nat
  | 0, _, _ => []
  | k + 1, bs, current =>
      let dc := decDelta bpd bs
      let cur2 := (((current : Int) + dc.1) % (2 ^ 64 : Int)).toNat
      cur2 :: decodeLoop bpd k (bs.drop dc.2) cur2

/-- `DeltaEncoding::decompressTimestamps` (`compression.cpp`, lines
121-190): inputs shorter than the 17-byte header decode to the empty
array; otherwise the first timestamp is pushed and `count - 1` deltas
are replayed. -/
def decompressTimestamps (bs : List Nat) : List Nat :=
  if bs.length < 17 then []
  else
    let first := leRead 8 bs
    let count := leRead 8 (bs.drop 8)
    let bpd := (bs.drop 16).headD 0
    first :: decodeLoop bpd (count - 1) (bs.drop 17) first

set_option maxRecDepth 10000 in
/-- C3 (counterexample): the round trip fails on the two-element array
`[0, 2^63]`. Its consecutive delta is `INT64_MIN`, whose `std::abs`
wraps to itself and never raises `maxDelta` above zero, so the encoder
chooses a one-byte width and truncates the delta to `0`: decoding yields
`[0, 0]`, not the input. -/
theorem c3_counterexample :
    decompressTimestamps (compressTimestamps [0, 2 ^ 63]) = [0, 0]
    ∧ (0 : Nat) ≠ 2 ^ 63 := by
  constructor
  · decide
  · decide

theorem toSigned64_range (n : Nat) (h : n < 2 ^ 64) :
    -(2 ^ 63) ≤ toSigned64 n ∧ toSigned64 n < 2 ^ 63 := by
  rw [toSigned64]
  split_ifs with h1 <;> constructor <;> omega

theorem absInt64_eq_abs {d : Int} (h : d ≠ -(2 ^ 63)) : absInt64 d = |d| := by
  rw [absInt64, if_neg h]

theorem absInt64_lt (d : Int) (h1 : -(2 ^ 63) ≤ d) (h2 : d < 2 ^ 63) :
    absInt64 d < 2 ^ 63 := by
  rw [absInt64]
  split_ifs with h
  · omega
  · rcases abs_cases d with ⟨he, _⟩ | ⟨he, _⟩ <;> omega

theorem signed_emod_roundtrip (w : Nat) (hw : 1 ≤ w) (d : Int)
    (hfit : |d| < 2 ^ (8 * w - 1)) :
    signedOfWidth w ((d % (2 ^ (8 * w) : Int)).toNat) = d := by
  have habs := abs_lt.mp hfit
  have hM : (2 : Int) ^ (8 * w) = 2 * 2 ^ (8 * w - 1) := by
    rw [← pow_succ']
    congr 1
    omega
  have hHpos : (0 : Int) < 2 ^ (8 * w - 1) := by positivity
  have hcase : d % (2 ^ (8 * w) : Int)
      = if 0 ≤ d then d else d + 2 ^ (8 * w) := by
    split_ifs with hd
    · exact Int.emod_eq_of_lt hd (by omega)
    · have h1 := Int.add_mul_emod_self_left (a := d)
        (b := (2 : Int) ^ (8 * w)) (c := 1)
      rw [mul_one] at h1
      rw [← h1]
      exact Int.emod_eq_of_lt (by omega) (by omega)
  have hc1 : ((2 ^ (8 * w - 1) : Nat) : Int) = 2 ^ (8 * w - 1) := by
    push_cast
    ring
  have hc2 : ((2 ^ (8 * w) : Nat) : Int) = 2 ^ (8 * w) := by
    push_cast
    ring
  rw [signedOfWidth, hcase]
  split_ifs with hd hcond <;> omega

theorem decDelta_encDelta (w : Nat)
    (hw : w = 1 ∨ w = 2 ∨ w = 4 ∨ w = 8) (d : Int)
    (hfit : |d| < 2 ^ (8 * w - 1)) (rest : List Nat) :
    decDelta w (encDelta w d ++ rest) = (d, w) := by
  have hsr := signed_emod_roundtrip w
    (by rcases hw with rfl | rfl | rfl | rfl <;> norm_num) d hfit
  have hlt : (d % (2 ^ (8 * w) : Int)).toNat < 2 ^ (8 * w) := by
    have h1 : (0 : Int) < 2 ^ (8 * w) := by positivity
    have h2 := Int.emod_nonneg d (ne_of_gt h1)
    have h3 := Int.emod_lt_of_pos d h1
    have hc2 : ((2 ^ (8 * w) : Nat) : Int) = 2 ^ (8 * w) := by
      push_cast
      ring
    omega
  have hread : leRead w (encDelta w d ++ rest)
      = (d % (2 ^ (8 * w) : Int)).toNat := by
    rw [encDelta, leRead_leBytes_append, Nat.mod_eq_of_lt hlt]
  rcases hw with rfl | rfl | rfl | rfl <;>
    (rw [decDelta, hread, hsr])

theorem delta64_reconstruct (prev cur : Nat) (hp : prev < 2 ^ 64)
    (hc : cur < 2 ^ 64) :
    (((prev : Int) + delta64 prev cur) % (2 ^ 64 : Int)).toNat = cur := by
  rw [delta64, toSigned64]
  split_ifs with h1 <;> omega

theorem deltasOf_cons_cons (a b : Nat) (l : List Nat) :
    deltasOf (a :: b :: l) = delta64 a b :: deltasOf (b :: l) := rfl

theorem drop_length_append {α : Type} (l1 l2 : List α) (n : Nat)
    (h : l1.length = n) : (l1 ++ l2).drop n = l2 := by
  subst h
  exact List.drop_left _ _

theorem decodeLoop_chain (w : Nat)
    (hw : w = 1 ∨ w = 2 ∨ w = 4 ∨ w = 8) (xs : List Nat) :
    ∀ (prev : Nat), prev < 2 ^ 64 → (∀ x ∈ xs, x < 2 ^ 64) →
    (∀ pq ∈ (prev :: xs).zip xs, |delta64 pq.1 pq.2| < 2 ^ (8 * w - 1)) →
    decodeLoop w xs.length ((deltasOf (prev :: xs)).flatMap (encDelta w))
        prev = xs := by
  induction xs with
  | nil => intro prev _ _ _; rfl
  | cons x xs ih =>
      intro prev hprev hxs hfit
      have hx : x < 2 ^ 64 := hxs x (by simp)
      have hzip : (prev :: x :: xs).zip (x :: xs)
          = (prev, x) :: (x :: xs).zip xs := rfl
      have hd : |delta64 prev x| < 2 ^ (8 * w - 1) := by
        have := hfit (prev, x) (by rw [hzip]; exact List.mem_cons_self _ _)
        exact this
      rw [deltasOf_cons_cons, List.flatMap_cons, List.length_cons]
      rw [decodeLoop]
      simp only [decDelta_encDelta w hw _ hd]
      rw [delta64_reconstruct prev x hprev hx]
      have hdrop : (encDelta w (delta64 prev x) ++
          (deltasOf (x :: xs)).flatMap (encDelta w)).drop w
          = (deltasOf (x :: xs)).flatMap (encDelta w) :=
        drop_length_append _ _ w (by rw [encDelta, leBytes_length])
      rw [hdrop]
      rw [ih x hx (fun y hy => hxs y (List.mem_cons_of_mem x hy))
        (fun pq hpq => hfit pq (by rw [hzip]; exact List.mem_cons_of_mem _ hpq))]

theorem maxDeltaOf_spec (deltas : List Int) :
    (0 : Int) ≤ maxDeltaOf deltas
    ∧ ∀ d ∈ deltas, absInt64 d ≤ maxDeltaOf deltas := by
  rw [maxDeltaOf]
  suffices h : ∀ a : Int, a ≤ deltas.foldl
      (fun acc d => Max.max acc (absInt64 d)) a
      ∧ ∀ d ∈ deltas, absInt64 d ≤ deltas.foldl
        (fun acc d => Max.max acc (absInt64 d)) a by
    exact (h 0)
  induction deltas with
  | nil => intro a; exact ⟨le_rfl, by intro d hd; simp at hd⟩
  | cons x xs ih =>
      intro a
      rw [List.foldl_cons]
      obtain ⟨h1, h2⟩ := ih (Max.max a (absInt64 x))
      refine ⟨le_trans (le_max_left _ _) h1, ?_⟩
      intro d hd
      rcases List.mem_cons.mp hd with rfl | hd
      · exact le_trans (le_max_right _ _) h1
      · exact h2 d hd

theorem maxDeltaOf_lt (deltas : List Int)
    (h : ∀ d ∈ deltas, absInt64 d < 2 ^ 63) :
    maxDeltaOf deltas < 2 ^ 63 := by
  rw [maxDeltaOf]
  suffices hgen : ∀ a : Int, a < 2 ^ 63 → deltas.foldl
      (fun acc d => Max.max acc (absInt64 d)) a < 2 ^ 63 by
    exact hgen 0 (by norm_num)
  induction deltas with
  | nil => intro a ha; exact ha
  | cons x xs ih =>
      intro a ha
      rw [List.foldl_cons]
      exact ih (fun d hd => h d (List.mem_cons_of_mem x hd)) _
        (max_lt ha (h x (List.mem_cons_self x xs)))

theorem chooseWidth_mem (md : Int) :
    chooseWidth md = 1 ∨ chooseWidth md = 2 ∨ chooseWidth md = 4
      ∨ chooseWidth md = 8 := by
  rw [chooseWidth]
  split_ifs <;> simp

theorem chooseWidth_bound (md : Int) (h0 : 0 ≤ md) (h63 : md < 2 ^ 63) :
    md < 2 ^ (8 * chooseWidth md - 1) := by
  rw [chooseWidth]
  split_ifs with h1 h2 h3 <;> norm_num <;> omega

set_option maxHeartbeats 2000000 in
/-- C3 (amended): `decompressTimestamps (compressTimestamps X) = X` for
every non-empty `u64` array `X` in which no consecutive difference, read
as a signed 64-bit delta, equals `-2^63` (for such a delta `std::abs`
overflows and the encoder can pick a width that loses it — see
`c3_counterexample`); the empty array compresses to the recognizable
empty record and decodes back to empty. -/
theorem c3_theorem (ts : List Nat) (hne : ts ≠ [])
    (hbound : ∀ t ∈ ts, t < 2 ^ 64) (hlen : ts.length < 2 ^ 64)
    (hdelta : ∀ pq ∈ ts.zip ts.tail, delta64 pq.1 pq.2 ≠ -(2 ^ 63)) :
    decompressTimestamps (compressTimestamps ts) = ts
    ∧ compressTimestamps [] = [] ∧ decompressTimestamps [] = [] := by
  have hdec_emp : decompressTimestamps [] = [] := by
    rw [decompressTimestamps]
    simp
  refine ⟨?_, rfl, hdec_emp⟩
  obtain ⟨t0, rest, rfl⟩ : ∃ t0 rest, ts = t0 :: rest := by
    cases ts with
    | nil => exact absurd rfl hne
    | cons a l => exact ⟨a, l, rfl⟩
  have ht0 : t0 < 2 ^ 64 := hbound t0 (List.mem_cons_self _ _)
  set deltas := deltasOf (t0 :: rest) with hdeltas
  set md := maxDeltaOf deltas with hmd
  set w := chooseWidth md with hwdef
  have hw_mem : w = 1 ∨ w = 2 ∨ w = 4 ∨ w = 8 := chooseWidth_mem md
  have hd_range : ∀ d ∈ deltas, -(2 ^ 63) ≤ d ∧ d < 2 ^ 63 := by
    intro d hd
    rw [hdeltas, deltasOf] at hd
    obtain ⟨pq, hpq, rfl⟩ := List.mem_map.mp hd
    exact toSigned64_range _ (Nat.mod_lt _ (by norm_num))
  have habs_lt : ∀ d ∈ deltas, absInt64 d < 2 ^ 63 := fun d hd =>
    absInt64_lt d (hd_range d hd).1 (hd_range d hd).2
  obtain ⟨hmd0, hmd_le⟩ := maxDeltaOf_spec deltas
  have hmd63 : md < 2 ^ 63 := maxDeltaOf_lt deltas habs_lt
  have hmd_bd : md < 2 ^ (8 * w - 1) := chooseWidth_bound md hmd0 hmd63
  have hfit : ∀ pq ∈ (t0 :: rest).zip rest,
      |delta64 pq.1 pq.2| < 2 ^ (8 * w - 1) := by
    intro pq hpq
    have hmem : delta64 pq.1 pq.2 ∈ deltas := by
      rw [hdeltas, deltasOf]
      exact List.mem_map.mpr ⟨pq, hpq, rfl⟩
    have hne' : delta64 pq.1 pq.2 ≠ -(2 ^ 63) := hdelta pq hpq
    have h1 := hmd_le _ hmem
    rw [absInt64_eq_abs hne'] at h1
    omega
  have hcomp : compressTimestamps (t0 :: rest)
      = le64 t0 ++ (le64 (rest.length + 1)
          ++ ([w] ++ deltas.flatMap (encDelta w))) := by
    rw [compressTimestamps]
    simp only [List.length_cons, List.append_assoc]
  rw [hcomp, decompressTimestamps]
  have hlen8 : ∀ n : Nat, (le64 n).length = 8 := fun n => leBytes_length 8 n
  have hlen17 : ¬ ((le64 t0 ++ (le64 (rest.length + 1)
      ++ ([w] ++ deltas.flatMap (encDelta w)))).length < 17) := by
    simp only [List.length_append, hlen8, List.length_cons,
      List.length_nil]
    omega
  rw [if_neg hlen17]
  have hfirst : leRead 8 (le64 t0 ++ (le64 (rest.length + 1)
      ++ ([w] ++ deltas.flatMap (encDelta w)))) = t0 := by
    rw [le64, leRead_leBytes_append, Nat.mod_eq_of_lt ht0]
  have hdrop8 : (le64 t0 ++ (le64 (rest.length + 1)
      ++ ([w] ++ deltas.flatMap (encDelta w)))).drop 8
      = le64 (rest.length + 1) ++ ([w] ++ deltas.flatMap (encDelta w)) :=
    drop_length_append _ _ 8 (hlen8 t0)
  have hcount : leRead 8 ((le64 t0 ++ (le64 (rest.length + 1)
      ++ ([w] ++ deltas.flatMap (encDelta w)))).drop 8)
      = rest.length + 1 := by
    rw [hdrop8, le64, leRead_leBytes_append]
    rw [List.length_cons] at hlen
    exact Nat.mod_eq_of_lt hlen
  have hassoc : le64 t0 ++ (le64 (rest.length + 1)
      ++ ([w] ++ deltas.flatMap (encDelta w)))
      = (le64 t0 ++ le64 (rest.length + 1))
          ++ ([w] ++ deltas.flatMap (encDelta w)) := by
    rw [List.append_assoc]
  have hdrop16 : (le64 t0 ++ (le64 (rest.length + 1)
      ++ ([w] ++ deltas.flatMap (encDelta w)))).drop 16
      = [w] ++ deltas.flatMap (encDelta w) := by
    rw [hassoc]
    exact drop_length_append _ _ 16
      (by rw [List.length_append, hlen8, hlen8])
  have hassoc2 : le64 t0 ++ (le64 (rest.length + 1)
      ++ ([w] ++ deltas.flatMap (encDelta w)))
      = ((le64 t0 ++ le64 (rest.length + 1)) ++ [w])
          ++ deltas.flatMap (encDelta w) := by
    rw [List.append_assoc, List.append_assoc]
  have hdrop17 : (le64 t0 ++ (le64 (rest.length + 1)
      ++ ([w] ++ deltas.flatMap (encDelta w)))).drop 17
      = deltas.flatMap (encDelta w) := by
    rw [hassoc2]
    exact drop_length_append _ _ 17
      (by simp only [List.length_append, hlen8, List.length_cons,
            List.length_nil])
  rw [hfirst, hcount, hdrop16, hdrop17]
  simp only [List.cons_append, List.nil_append, List.headD_cons,
    Nat.add_sub_cancel]
  rw [hdeltas]
  exact congrArg (t0 :: ·) (decodeLoop_chain w hw_mem rest t0 ht0
    (fun x hx => hbound x (List.mem_cons_of_mem t0 hx)) hfit)

/-- Witness for `c3_theorem` at the non-monotone array `[5, 7, 6]`
(deltas `2` and `-1`). -/
theorem c3_witness :
    ([5, 7, 6] : List Nat) ≠ []
    ∧ (decompressTimestamps (compressTimestamps [5, 7, 6]) = [5, 7, 6]
        ∧ compressTimestamps [] = [] ∧ decompressTimestamps [] = []) :=
  ⟨by decide, c3_theorem [5, 7, 6] (by decide) (by decide) (by decide)
    (by decide)⟩

/-- The per-row tag block of `ColumnarChunk::serialize`
(`columnar_storage.cpp`, lines 392-417): a `uint32_t` tag count, then
per pair a `uint32_t` key length, the key bytes, a `uint32_t` value
length and the value bytes. -/
def serializeTagMap (tm : TagMap) : List Nat :=
  le32 tm.length ++ tm.flatMap (fun kv =>
    le32 kv.1.length ++ kv.1 ++ le32 kv.2.length ++ kv.2)

/-- `ColumnarChunk::serialize` (`columnar_storage.cpp`, lines 347-420):
header `(minTimestamp, maxTimestamp, count)` as three 8-byte fields,
the raw timestamp column, the raw value column (`double`s as their
64-bit patterns), then the per-row tag blocks. -/
def ColumnarChunk.serialize (c : ColumnarChunk Nat) : List Nat :=
  le64 c.minTimestamp ++ le64 c.maxTimestamp ++ le64 c.count
    ++ c.timestamps.flatMap le64 ++ c.values.flatMap le64
    ++ c.tags.flatMap serializeTagMap

/-- `k` consecutive 8-byte little-endian loads (the `memcpy` into the
timestamp and value columns). -/
def decodeU64s : Nat → List Nat → List Nat
  | 0, _ => []
  | k + 1, bs => leRead 8 bs :: decodeU64s k (bs.drop 8)

/-- The per-pair loop of `ColumnarChunk::deserialize`
(`columnar_storage.cpp`, lines 494-537): read and bounds-check a key
and a value, insert into the row's map, recurse. A `key_len > 256`,
`value_len > 256` or truncated payload fails with `CorruptData`. -/
def parsePairs : Nat → List Nat → TagMap → Option (TagMap × List Nat)
  | 0, bs, acc => some (acc, bs)
  | j + 1, bs, acc =>
      if 4 ≤ bs.length then
        let keyLen := leRead 4 bs
        let bs1 := bs.drop 4
        if keyLen ≤ 256 ∧ keyLen ≤ bs1.length then
          let key := bs1.take keyLen
          let bs2 := bs1.drop keyLen
          if 4 ≤ bs2.length then
            let valLen := leRead 4 bs2
            let bs3 := bs2.drop 4
            if valLen ≤ 256 ∧ valLen ≤ bs3.length then
              parsePairs j (bs3.drop valLen)
                (tagInsert acc key (bs3.take valLen))
            else none
          else none
        else none
      else none

/-- The per-row loop of `ColumnarChunk::deserialize`
(`columnar_storage.cpp`, lines 477-538): read a `uint32_t` tag count
(rejecting more than 100 tags), then that row's pairs. -/
def parseTags : Nat → List Nat → Option (List TagMap × List Nat)
  | 0, bs => some ([], bs)
  | k + 1, bs =>
      if 4 ≤ bs.length then
        let tagCount := leRead 4 bs
        if tagCount ≤ 100 then
          match parsePairs tagCount (bs.drop 4) [] with
          | some (tm, rest) =>
              match parseTags k rest with
              | some (tms, rest2) => some (tm :: tms, rest2)
              | none => none
          | none => none
        else none
      else none

/-- `ColumnarChunk::deserialize` (`columnar_storage.cpp`, lines
422-539): validate the header (at least 24 bytes, `count ≤
VALUES_PER_CHUNK`), read the two raw columns after checking the
remaining size, then the tag blocks; any violation raises
`CorruptData`, modelled as `none`. -/
def ColumnarChunk.deserialize (bs : List Nat) :
    Option (ColumnarChunk Nat) :=
  if bs.length < 24 then none
  else
    let minTs := leRead 8 bs
    let maxTs := leRead 8 (bs.drop 8)
    let count := leRead 8 (bs.drop 16)
    let rest := bs.drop 24
    if VALUES_PER_CHUNK < count then none
    else if rest.length < count * 8 then none
    else
      let tsCol := decodeU64s count rest
      let rest2 := rest.drop (count * 8)
      if rest2.length < count * 8 then none
      else
        let valCol := decodeU64s count rest2
        let rest3 := rest2.drop (count * 8)
        match parseTags count rest3 with
        | some (tags, _) =>
            some { timestamps := tsCol, values := valCol, tags := tags
                   minTimestamp := minTs, maxTimestamp := maxTs
                   count := count }
        | none => none

set_option maxRecDepth 10000 in
/-- C4 (counterexample): serialization has no caps, but deserialization
rejects any tag key longer than 256 bytes, so the round trip fails on a
one-row chunk whose single tag key has 257 bytes. -/
theorem c4_counterexample :
    ColumnarChunk.deserialize
      ((buildChunk [(0, 0, [(List.replicate 257 97, [])])]
          : ColumnarChunk Nat).serialize) = none := by
  decide

theorem flatMap_le64_length (l : List Nat) :
    (l.flatMap le64).length = 8 * l.length := by
  induction l with
  | nil => rfl
  | cons x xs ih =>
      rw [List.flatMap_cons, List.length_append, ih, le64, leBytes_length]
      simp only [List.length_cons]
      ring

theorem decodeU64s_flatMap (l : List Nat) (h : ∀ x ∈ l, x < 2 ^ 64)
    (X : List Nat) :
    decodeU64s l.length (l.flatMap le64 ++ X) = l := by
  induction l with
  | nil => rfl
  | cons x xs ih =>
      rw [List.length_cons, List.flatMap_cons, List.append_assoc,
        decodeU64s]
      rw [le64, leRead_leBytes_append,
        Nat.mod_eq_of_lt (h x (List.mem_cons_self x xs))]
      rw [drop_length_append _ _ 8 (leBytes_length 8 x)]
      rw [ih (fun y hy => h y (List.mem_cons_of_mem x hy))]

theorem drop_flatMap_le64 (l : List Nat) (X : List Nat) :
    (l.flatMap le64 ++ X).drop (l.length * 8) = X :=
  drop_length_append _ _ _ (by rw [flatMap_le64_length]; ring)

theorem tagInsert_fresh (tm : TagMap) (k v : Str)
    (h : ∀ kv ∈ tm, kv.1 ≠ k) : tagInsert tm k v = tm ++ [(k, v)] := by
  induction tm with
  | nil => rfl
  | cons kv rest ih =>
      rw [tagInsert]
      rw [if_neg (h kv (List.mem_cons_self kv rest))]
      rw [ih (fun kv2 h2 => h kv2 (List.mem_cons_of_mem kv h2))]
      rfl

theorem parsePairs_roundtrip (tm : TagMap) :
    (∀ kv ∈ tm, kv.1.length ≤ 256 ∧ kv.2.length ≤ 256) →
    (tm.map (fun kv => kv.1)).Nodup →
    ∀ (acc : TagMap) (X : List Nat),
      (∀ kv ∈ tm, ∀ kv2 ∈ acc, kv2.1 ≠ kv.1) →
      parsePairs tm.length
        (tm.flatMap (fun kv =>
          le32 kv.1.length ++ kv.1 ++ le32 kv.2.length ++ kv.2) ++ X) acc
        = some (acc ++ tm, X) := by
  induction tm with
  | nil =>
      intro _ _ acc X _
      simp [parsePairs]
  | cons kv rest ih =>
      intro hcaps hnodup acc X hfresh
      obtain ⟨hk256, hv256⟩ := hcaps kv (List.mem_cons_self kv rest)
      rw [List.length_cons, List.flatMap_cons]
      set R := rest.flatMap (fun kv =>
        le32 kv.1.length ++ kv.1 ++ le32 kv.2.length ++ kv.2) with hR
      simp only [List.append_assoc]
      rw [parsePairs]
      have hb1 : (4 : Nat) ≤ (le32 kv.1.length ++ (kv.1 ++
          (le32 kv.2.length ++ (kv.2 ++ (R ++ X))))).length := by
        simp only [List.length_append, le32, leBytes_length]
        omega
      rw [if_pos hb1]
      have hkl : leRead 4 (le32 kv.1.length ++ (kv.1 ++
          (le32 kv.2.length ++ (kv.2 ++ (R ++ X))))) = kv.1.length := by
        rw [le32, leRead_leBytes_append]
        exact Nat.mod_eq_of_lt (by norm_num; omega)
      rw [hkl]
      rw [drop_length_append (le32 kv.1.length) _ 4
        (by rw [le32, leBytes_length])]
      have hb2 : kv.1.length ≤ 256 ∧ kv.1.length ≤ (kv.1 ++
          (le32 kv.2.length ++ (kv.2 ++ (R ++ X)))).length := by
        constructor
        · exact hk256
        · simp only [List.length_append]
          omega
      rw [if_pos hb2]
      rw [List.take_left, List.drop_left]
      have hb3 : (4 : Nat) ≤ (le32 kv.2.length ++
          (kv.2 ++ (R ++ X))).length := by
        simp only [List.length_append, le32, leBytes_length]
        omega
      rw [if_pos hb3]
      have hvl : leRead 4 (le32 kv.2.length ++ (kv.2 ++ (R ++ X)))
          = kv.2.length := by
        rw [le32, leRead_leBytes_append]
        exact Nat.mod_eq_of_lt (by norm_num; omega)
      rw [hvl]
      rw [drop_length_append (le32 kv.2.length) _ 4
        (by rw [le32, leBytes_length])]
      have hb4 : kv.2.length ≤ 256 ∧ kv.2.length ≤
          (kv.2 ++ (R ++ X)).length := by
        constructor
        · exact hv256
        · simp only [List.length_append]
          omega
      rw [if_pos hb4]
      rw [List.take_left, List.drop_left]
      rw [tagInsert_fresh acc kv.1 kv.2
        (fun kv2 h2 => hfresh kv (List.mem_cons_self kv rest) kv2 h2)]
      rw [List.map_cons, List.nodup_cons] at hnodup
      have hih := ih
        (fun kv2 h2 => hcaps kv2 (List.mem_cons_of_mem kv h2))
        hnodup.2
        (acc ++ [(kv.1, kv.2)]) X
        (by
          intro kv2 h2 kv3 h3
          rcases List.mem_append.mp h3 with h3 | h3
          · exact hfresh kv2 (List.mem_cons_of_mem kv h2) kv3 h3
          · rw [List.mem_singleton.mp h3]
            intro heq
            exact hnodup.1 (heq ▸ List.mem_map.mpr ⟨kv2, h2, rfl⟩))
      rw [hih]
      simp [List.append_assoc]

theorem parseTags_roundtrip (tms : List TagMap)
    (hrow : ∀ tm ∈ tms, tm.length ≤ 100
      ∧ (∀ kv ∈ tm, kv.1.length ≤ 256 ∧ kv.2.length ≤ 256)
      ∧ (tm.map (fun kv => kv.1)).Nodup) (X : List Nat) :
    parseTags tms.length (tms.flatMap serializeTagMap ++ X)
      = some (tms, X) := by
  induction tms generalizing X with
  | nil => simp [parseTags]
  | cons tm tms ih =>
      obtain ⟨h100, hcaps, hnodup⟩ := hrow tm (List.mem_cons_self tm tms)
      rw [List.length_cons, List.flatMap_cons, serializeTagMap]
      set P := tm.flatMap (fun kv =>
        le32 kv.1.length ++ kv.1 ++ le32 kv.2.length ++ kv.2) with hP
      set R := tms.flatMap serializeTagMap with hR
      simp only [List.append_assoc]
      rw [parseTags]
      have hb1 : (4 : Nat) ≤ (le32 tm.length ++ (P ++ (R ++ X))).length := by
        simp only [List.length_append, le32, leBytes_length]
        omega
      rw [if_pos hb1]
      have hcnt : leRead 4 (le32 tm.length ++ (P ++ (R ++ X)))
          = tm.length := by
        rw [le32, leRead_leBytes_append]
        exact Nat.mod_eq_of_lt (by norm_num; omega)
      rw [hcnt]
      rw [if_pos h100]
      rw [drop_length_append (le32 tm.length) _ 4
        (by rw [le32, leBytes_length])]
      have hpp := parsePairs_roundtrip tm hcaps hnodup [] (R ++ X)
        (by intro kv _ kv2 h2; simp at h2)
      rw [← hP] at hpp
      simp only [hpp, List.nil_append,
        ih (fun t ht => hrow t (List.mem_cons_of_mem tm ht))]

theorem buildChunk_minmax_lt (rows : List (Row Nat))
    (hts : ∀ r ∈ rows, r.1 < 2 ^ 64) :
    (buildChunk rows).minTimestamp < 2 ^ 64
    ∧ (buildChunk rows).maxTimestamp < 2 ^ 64 := by
  rw [buildChunk]
  suffices hgen : ∀ c : ColumnarChunk Nat, c.minTimestamp < 2 ^ 64 →
      c.maxTimestamp < 2 ^ 64 →
      (rows.foldl (fun c r => c.append r.1 r.2.1 r.2.2) c).minTimestamp
          < 2 ^ 64
      ∧ (rows.foldl (fun c r => c.append r.1 r.2.1 r.2.2) c).maxTimestamp
          < 2 ^ 64 by
    refine hgen {} ?_ ?_
    · show UINT64_MAX < 2 ^ 64
      rw [UINT64_MAX]
      omega
    · show (0 : Nat) < 2 ^ 64
      omega
  induction rows with
  | nil => intro c h1 h2; exact ⟨h1, h2⟩
  | cons r rs ih =>
      intro c h1 h2
      have hr : r.1 < 2 ^ 64 := hts r (List.mem_cons_self r rs)
      rw [List.foldl_cons]
      refine ih (fun q hq => hts q (List.mem_cons_of_mem r hq))
        (c.append r.1 r.2.1 r.2.2) ?_ ?_
      · rw [ColumnarChunk.append]
        simp only []
        split_ifs with h
        · exact hr
        · exact lt_of_le_of_lt (min_le_left _ _) h1
      · rw [ColumnarChunk.append]
        simp only []
        split_ifs with h
        · exact hr
        · exact max_lt h2 hr

set_option maxHeartbeats 1000000 in
/-- C4 (amended): `deserialize (serialize c) = c`, componentwise, for
every chunk built by appends with `count ≤ CHUNK_CAPACITY` whose per-row
tag maps carry at most 100 tags and whose keys and values are at most
256 bytes long (`deserialize` rejects anything beyond those format
caps — see `c4_counterexample`). -/
theorem c4_theorem (rows : List (Row Nat))
    (hcount : rows.length ≤ VALUES_PER_CHUNK)
    (hts : ∀ r ∈ rows, r.1 < 2 ^ 64)
    (hvals : ∀ r ∈ rows, r.2.1 < 2 ^ 64)
    (htags : ∀ r ∈ rows, r.2.2.length ≤ 100
      ∧ (∀ kv ∈ r.2.2, kv.1.length ≤ 256 ∧ kv.2.length ≤ 256)
      ∧ (r.2.2.map (fun kv => kv.1)).Nodup) :
    ColumnarChunk.deserialize ((buildChunk rows).serialize)
      = some (buildChunk rows) := by
  have hwf := chunkWF_buildChunk rows
  obtain ⟨hmin64, hmax64⟩ := buildChunk_minmax_lt rows hts
  set c := buildChunk rows with hc
  have htsl : c.timestamps = rows.map (fun r => r.1) :=
    buildChunk_timestamps rows
  have hvl : c.values = rows.map (fun r => r.2.1) := buildChunk_values rows
  have htg : c.tags = rows.map (fun r => r.2.2) := buildChunk_tags rows
  have hcnt : c.count = rows.length := buildChunk_count rows
  have hts64 : ∀ x ∈ c.timestamps, x < 2 ^ 64 := by
    intro x hx
    rw [htsl] at hx
    obtain ⟨r, hr, rfl⟩ := List.mem_map.mp hx
    exact hts r hr
  have hvals64 : ∀ x ∈ c.values, x < 2 ^ 64 := by
    intro x hx
    rw [hvl] at hx
    obtain ⟨r, hr, rfl⟩ := List.mem_map.mp hx
    exact hvals r hr
  have hser : c.serialize = le64 c.minTimestamp ++ (le64 c.maxTimestamp
      ++ (le64 c.count ++ (c.timestamps.flatMap le64
        ++ (c.values.flatMap le64 ++ c.tags.flatMap serializeTagMap)))) := by
    rw [ColumnarChunk.serialize]
    simp only [List.append_assoc]
  set T := c.timestamps.flatMap le64 with hT
  set V := c.values.flatMap le64 with hV
  set G := c.tags.flatMap serializeTagMap with hG
  have hTlen : T.length = 8 * c.count := by
    rw [hT, flatMap_le64_length, hwf.len_ts]
  have hVlen : V.length = 8 * c.count := by
    rw [hV, flatMap_le64_length, hwf.len_vals]
  rw [hser, ColumnarChunk.deserialize]
  have hlen24 : ¬ ((le64 c.minTimestamp ++ (le64 c.maxTimestamp
      ++ (le64 c.count ++ (T ++ (V ++ G))))).length < 24) := by
    simp only [List.length_append, le64, leBytes_length]
    omega
  rw [if_neg hlen24]
  have hrmin : leRead 8 (le64 c.minTimestamp ++ (le64 c.maxTimestamp
      ++ (le64 c.count ++ (T ++ (V ++ G))))) = c.minTimestamp := by
    rw [le64, leRead_leBytes_append]
    exact Nat.mod_eq_of_lt hmin64
  have hdrop8 : (le64 c.minTimestamp ++ (le64 c.maxTimestamp
      ++ (le64 c.count ++ (T ++ (V ++ G))))).drop 8
      = le64 c.maxTimestamp ++ (le64 c.count ++ (T ++ (V ++ G))) :=
    drop_length_append (le64 c.minTimestamp) _ 8
      (by rw [le64, leBytes_length])
  have hrmax : leRead 8 ((le64 c.minTimestamp ++ (le64 c.maxTimestamp
      ++ (le64 c.count ++ (T ++ (V ++ G))))).drop 8)
      = c.maxTimestamp := by
    rw [hdrop8, le64, leRead_leBytes_append]
    exact Nat.mod_eq_of_lt hmax64
  have hassoc16 : le64 c.minTimestamp ++ (le64 c.maxTimestamp
      ++ (le64 c.count ++ (T ++ (V ++ G))))
      = (le64 c.minTimestamp ++ le64 c.maxTimestamp)
          ++ (le64 c.count ++ (T ++ (V ++ G))) := by
    rw [List.append_assoc]
  have hdrop16 : (le64 c.minTimestamp ++ (le64 c.maxTimestamp
      ++ (le64 c.count ++ (T ++ (V ++ G))))).drop 16
      = le64 c.count ++ (T ++ (V ++ G)) := by
    rw [hassoc16]
    exact drop_length_append _ _ 16
      (by simp only [List.length_append, le64, leBytes_length])
  have hrcnt : leRead 8 ((le64 c.minTimestamp ++ (le64 c.maxTimestamp
      ++ (le64 c.count ++ (T ++ (V ++ G))))).drop 16) = c.count := by
    rw [hdrop16, le64, leRead_leBytes_append]
    apply Nat.mod_eq_of_lt
    rw [hcnt]
    have : VALUES_PER_CHUNK = 1000 := rfl
    omega
  have hassoc24 : le64 c.minTimestamp ++ (le64 c.maxTimestamp
      ++ (le64 c.count ++ (T ++ (V ++ G))))
      = ((le64 c.minTimestamp ++ le64 c.maxTimestamp) ++ le64 c.count)
          ++ (T ++ (V ++ G)) := by
    rw [List.append_assoc, List.append_assoc]
  have hdrop24 : (le64 c.minTimestamp ++ (le64 c.maxTimestamp
      ++ (le64 c.count ++ (T ++ (V ++ G))))).drop 24
      = T ++ (V ++ G) := by
    rw [hassoc24]
    exact drop_length_append _ _ 24
      (by simp only [List.length_append, le64, leBytes_length])
  rw [hrmin, hrmax, hrcnt, hdrop24]
  have hnotbig : ¬ (VALUES_PER_CHUNK < c.count) := by
    rw [hcnt]
    omega
  rw [if_neg hnotbig]
  have hlenT : ¬ ((T ++ (V ++ G)).length < c.count * 8) := by
    simp only [List.length_append]
    omega
  rw [if_neg hlenT]
  have hdecT : decodeU64s c.count (T ++ (V ++ G)) = c.timestamps := by
    rw [hT, ← hwf.len_ts]
    exact decodeU64s_flatMap c.timestamps hts64 _
  have hdropT : (T ++ (V ++ G)).drop (c.count * 8) = V ++ G := by
    rw [hT, ← hwf.len_ts]
    exact drop_flatMap_le64 c.timestamps _
  rw [hdecT, hdropT]
  have hlenV : ¬ ((V ++ G).length < c.count * 8) := by
    simp only [List.length_append]
    omega
  rw [if_neg hlenV]
  have hdecV : decodeU64s c.count (V ++ G) = c.values := by
    rw [hV, ← hwf.len_vals]
    exact decodeU64s_flatMap c.values hvals64 _
  have hdropV : (V ++ G).drop (c.count * 8) = G := by
    rw [hV, ← hwf.len_vals]
    exact drop_flatMap_le64 c.values _
  rw [hdecV, hdropV]
  have hrows : ∀ tm ∈ c.tags, tm.length ≤ 100
      ∧ (∀ kv ∈ tm, kv.1.length ≤ 256 ∧ kv.2.length ≤ 256)
      ∧ (tm.map (fun kv => kv.1)).Nodup := by
    intro tm htm
    rw [htg] at htm
    obtain ⟨r, hr, rfl⟩ := List.mem_map.mp htm
    exact htags r hr
  have hpt := parseTags_roundtrip c.tags hrows []
  rw [List.append_nil, ← hG] at hpt
  rw [hwf.len_tags] at hpt
  simp only [hpt]

/-- Witness for `c4_theorem`: a one-row chunk with a single tag pair. -/
theorem c4_witness :
    ([(3, 9, [([107], [118])])] : List (Row Nat)).length ≤ VALUES_PER_CHUNK
    ∧ ColumnarChunk.deserialize ((buildChunk [(3, 9, [([107], [118])])]
          : ColumnarChunk Nat).serialize)
        = some (buildChunk [(3, 9, [([107], [118])])]) :=
  ⟨by decide,
   c4_theorem [(3, 9, [([107], [118])])] (by decide) (by decide)
     (by decide) (by decide)⟩

/-- The body of one WAL record after its `entrySize` field
(`WriteAheadLog::writeEntryToFile`, `wal.cpp` lines 52-141): sequence,
timestamp, value (its 64-bit pattern), metric length and bytes, tag
count, then per tag the length-prefixed key and value. -/
def walEntryBody (seq : Nat) (p : TimePoint Nat) : List Nat :=
  le64 seq ++ le64 p.timestamp ++ le64 p.value ++ le32 p.metric.length
    ++ p.metric ++ le32 p.tags.length
    ++ p.tags.flatMap (fun kv =>
        le32 kv.1.length ++ kv.1 ++ le32 kv.2.length ++ kv.2)

/-- One framed WAL record: the `uint32_t` `entrySize` (bytes following
the field) then the body. -/
def walEntry (seq : Nat) (p : TimePoint Nat) : List Nat :=
  le32 (walEntryBody seq p).length ++ walEntryBody seq p

/-- The log produced by consecutive `append` calls starting at sequence
`s0` (the WAL assigns `sequence = nextSeq++` per record). -/
def walBytes (s0 : Nat) : List (TimePoint Nat) → List Nat
  | [] => []
  | p :: ps => walEntry s0 p ++ walBytes (s0 + 1) ps

/-- The tag loop of `WriteAheadLog::parseEntry` (`wal.cpp`, lines
273-312) on the entry slice `data[offset .. entrySize)`: the source
checks every read against `entrySize`, which on the slice is exactly a
remaining-length check. Oversized (cap 256) or truncated keys or values
raise, modelled as `none`. -/
def parseWalTags : Nat → List Nat → TagMap → Option TagMap
  | 0, _, acc => some acc
  | j + 1, bs, acc =>
      if bs.length < 4 then none
      else
        let keyLen := leRead 4 bs
        let bs1 := bs.drop 4
        if keyLen > 256 ∨ keyLen > bs1.length then none
        else
          let key := bs1.take keyLen
          let bs2 := bs1.drop keyLen
          if bs2.length < 4 then none
          else
            let valLen := leRead 4 bs2
            let bs3 := bs2.drop 4
            if valLen > 256 ∨ valLen > bs3.length then none
            else
              parseWalTags j (bs3.drop valLen)
                (tagInsert acc key (bs3.take valLen))

/-- `WriteAheadLog::parseEntry` (`wal.cpp`, lines 212-315) on the entry
slice `data[0 .. entrySize)`. The second component is the sequence
number when its eight bytes could be read: the source updates
`maxSequence` right after reading it, before any later check can
throw. Metric length is capped at 1024, tag count at 100. -/
def parseEntry (entry : List Nat) : Option (TimePoint Nat) × Option Nat :=
  if entry.length < 8 then (none, none)
  else
    let seq := leRead 8 entry
    let b1 := entry.drop 8
    if b1.length < 8 then (none, some seq)
    else
      let ts := leRead 8 b1
      let b2 := b1.drop 8
      if b2.length < 8 then (none, some seq)
      else
        let v := leRead 8 b2
        let b3 := b2.drop 8
        if b3.length < 4 then (none, some seq)
        else
          let metricLen := leRead 4 b3
          let b4 := b3.drop 4
          if metricLen > 1024 ∨ metricLen > b4.length then (none, some seq)
          else
            let metric := b4.take metricLen
            let b5 := b4.drop metricLen
            if b5.length < 4 then (none, some seq)
            else
              let tagCount := leRead 4 b5
              if tagCount > 100 then (none, some seq)
              else
                match parseWalTags tagCount (b5.drop 4) [] with
                | some tags =>
                    (some { metric := metric, timestamp := ts, value := v
                            tags := tags }, some seq)
                | none => (none, some seq)

/-- The scan loop of `WriteAheadLog::recover` (`wal.cpp`, lines
171-204): read an `entrySize`, stop on a truncated size field, a zero
size or a size past end-of-file, parse the entry (stopping at the first
failure), and fold the observed sequence numbers. The fuel only bounds
the iteration count; each step consumes at least five bytes. -/
def walRecoverLoop : Nat → List Nat → Nat → List (TimePoint Nat) × Nat
  | 0, _, maxSeq => ([], maxSeq)
  | fuel + 1, bs, maxSeq =>
      if bs.length < 4 then ([], maxSeq)
      else
        let entrySize := leRead 4 bs
        let rest := bs.drop 4
        if entrySize = 0 ∨ rest.length < entrySize then ([], maxSeq)
        else
          match parseEntry (rest.take entrySize) with
          | (some p, seqOpt) =>
              let r := walRecoverLoop fuel (rest.drop entrySize)
                (Max.max maxSeq (seqOpt.getD maxSeq))
              (p :: r.1, r.2)
          | (none, seqOpt) => ([], Max.max maxSeq (seqOpt.getD maxSeq))

/-- `WriteAheadLog::recover` (`wal.cpp`, lines 143-210): an absent or
empty log recovers nothing and leaves the sequence counter untouched
(`none`); otherwise the loop runs and the counter is set to the maximum
observed sequence plus one. -/
def walRecover (bs : List Nat) : List (TimePoint Nat) × Option Nat :=
  if bs.length = 0 then ([], none)
  else
    let r := walRecoverLoop bs.length bs 0
    (r.1, some (r.2 + 1))

theorem parseWalTags_roundtrip (tm : TagMap) :
    (∀ kv ∈ tm, kv.1.length ≤ 256 ∧ kv.2.length ≤ 256) →
    (tm.map (fun kv => kv.1)).Nodup →
    ∀ acc : TagMap,
      (∀ kv ∈ tm, ∀ kv2 ∈ acc, kv2.1 ≠ kv.1) →
      parseWalTags tm.length
        (tm.flatMap (fun kv =>
          le32 kv.1.length ++ kv.1 ++ le32 kv.2.length ++ kv.2)) acc
        = some (acc ++ tm) := by
  induction tm with
  | nil =>
      intro _ _ acc _
      simp [parseWalTags]
  | cons kv rest ih =>
      intro hcaps hnodup acc hfresh
      obtain ⟨hk256, hv256⟩ := hcaps kv (List.mem_cons_self kv rest)
      rw [List.length_cons, List.flatMap_cons]
      set R := rest.flatMap (fun kv =>
        le32 kv.1.length ++ kv.1 ++ le32 kv.2.length ++ kv.2) with hR
      simp only [List.append_assoc]
      rw [parseWalTags]
      have hb1 : ¬ ((le32 kv.1.length ++ (kv.1 ++
          (le32 kv.2.length ++ (kv.2 ++ R)))).length < 4) := by
        simp only [List.length_append, le32, leBytes_length]
        omega
      rw [if_neg hb1]
      have hkl : leRead 4 (le32 kv.1.length ++ (kv.1 ++
          (le32 kv.2.length ++ (kv.2 ++ R)))) = kv.1.length := by
        rw [le32, leRead_leBytes_append]
        exact Nat.mod_eq_of_lt (by norm_num; omega)
      rw [hkl]
      rw [drop_length_append (le32 kv.1.length) _ 4
        (by rw [le32, leBytes_length])]
      have hb2 : ¬ (kv.1.length > 256 ∨ kv.1.length > (kv.1 ++
          (le32 kv.2.length ++ (kv.2 ++ R))).length) := by
        simp only [List.length_append]
        omega
      rw [if_neg hb2]
      rw [List.take_left, List.drop_left]
      have hb3 : ¬ ((le32 kv.2.length ++ (kv.2 ++ R)).length < 4) := by
        simp only [List.length_append, le32, leBytes_length]
        omega
      rw [if_neg hb3]
      have hvl : leRead 4 (le32 kv.2.length ++ (kv.2 ++ R))
          = kv.2.length := by
        rw [le32, leRead_leBytes_append]
        exact Nat.mod_eq_of_lt (by norm_num; omega)
      rw [hvl]
      rw [drop_length_append (le32 kv.2.length) _ 4
        (by rw [le32, leBytes_length])]
      have hb4 : ¬ (kv.2.length > 256 ∨ kv.2.length > (kv.2 ++ R).length)
          := by
        simp only [List.length_append]
        omega
      rw [if_neg hb4]
      rw [List.take_left, List.drop_left]
      rw [tagInsert_fresh acc kv.1 kv.2
        (fun kv2 h2 => hfresh kv (List.mem_cons_self kv rest) kv2 h2)]
      rw [List.map_cons, List.nodup_cons] at hnodup
      have hih := ih
        (fun kv2 h2 => hcaps kv2 (List.mem_cons_of_mem kv h2))
        hnodup.2
        (acc ++ [(kv.1, kv.2)])
        (by
          intro kv2 h2 kv3 h3
          rcases List.mem_append.mp h3 with h3 | h3
          · exact hfresh kv2 (List.mem_cons_of_mem kv h2) kv3 h3
          · rw [List.mem_singleton.mp h3]
            intro heq
            exact hnodup.1 (heq ▸ List.mem_map.mpr ⟨kv2, h2, rfl⟩))
      rw [hih]
      simp [List.append_assoc]

/-- The cap bundle every point written through the public API within the
WAL's format limits satisfies. -/
def PointCaps (p : TimePoint Nat) : Prop :=
  p.timestamp < 2 ^ 64 ∧ p.value < 2 ^ 64 ∧ p.metric.length ≤ 1024
  ∧ p.tags.length ≤ 100
  ∧ (∀ kv ∈ p.tags, kv.1.length ≤ 256 ∧ kv.2.length ≤ 256)
  ∧ (p.tags.map (fun kv => kv.1)).Nodup

theorem parseEntry_walEntry (seq : Nat) (p : TimePoint Nat)
    (hseq : seq < 2 ^ 64) (hp : PointCaps p) :
    parseEntry (walEntryBody seq p) = (some p, some seq) := by
  obtain ⟨hts, hv, hm, htc, hkv, hnodup⟩ := hp
  rw [walEntryBody]
  set TG := p.tags.flatMap (fun kv =>
    le32 kv.1.length ++ kv.1 ++ le32 kv.2.length ++ kv.2) with hTG
  simp only [List.append_assoc]
  rw [parseEntry]
  have hb0 : ¬ ((le64 seq ++ (le64 p.timestamp ++ (le64 p.value
      ++ (le32 p.metric.length ++ (p.metric
        ++ (le32 p.tags.length ++ TG)))))).length < 8) := by
    simp only [List.length_append, le64, le32, leBytes_length]
    omega
  rw [if_neg hb0]
  have hrseq : leRead 8 (le64 seq ++ (le64 p.timestamp ++ (le64 p.value
      ++ (le32 p.metric.length ++ (p.metric
        ++ (le32 p.tags.length ++ TG)))))) = seq := by
    rw [le64, leRead_leBytes_append]
    exact Nat.mod_eq_of_lt hseq
  rw [hrseq]
  rw [drop_length_append (le64 seq) _ 8 (by rw [le64, leBytes_length])]
  have hb1 : ¬ ((le64 p.timestamp ++ (le64 p.value
      ++ (le32 p.metric.length ++ (p.metric
        ++ (le32 p.tags.length ++ TG))))).length < 8) := by
    simp only [List.length_append, le64, le32, leBytes_length]
    omega
  rw [if_neg hb1]
  have hrts : leRead 8 (le64 p.timestamp ++ (le64 p.value
      ++ (le32 p.metric.length ++ (p.metric
        ++ (le32 p.tags.length ++ TG))))) = p.timestamp := by
    rw [le64, leRead_leBytes_append]
    exact Nat.mod_eq_of_lt hts
  rw [hrts]
  rw [drop_length_append (le64 p.timestamp) _ 8
    (by rw [le64, leBytes_length])]
  have hb2 : ¬ ((le64 p.value ++ (le32 p.metric.length ++ (p.metric
      ++ (le32 p.tags.length ++ TG)))).length < 8) := by
    simp only [List.length_append, le64, le32, leBytes_length]
    omega
  rw [if_neg hb2]
  have hrv : leRead 8 (le64 p.value ++ (le32 p.metric.length ++ (p.metric
      ++ (le32 p.tags.length ++ TG)))) = p.value := by
    rw [le64, leRead_leBytes_append]
    exact Nat.mod_eq_of_lt hv
  rw [hrv]
  rw [drop_length_append (le64 p.value) _ 8 (by rw [le64, leBytes_length])]
  have hb3 : ¬ ((le32 p.metric.length ++ (p.metric
      ++ (le32 p.tags.length ++ TG))).length < 4) := by
    simp only [List.length_append, le32, leBytes_length]
    omega
  rw [if_neg hb3]
  have hrm : leRead 4 (le32 p.metric.length ++ (p.metric
      ++ (le32 p.tags.length ++ TG))) = p.metric.length := by
    rw [le32, leRead_leBytes_append]
    exact Nat.mod_eq_of_lt (by norm_num; omega)
  rw [hrm]
  rw [drop_length_append (le32 p.metric.length) _ 4
    (by rw [le32, leBytes_length])]
  have hb4 : ¬ (p.metric.length > 1024 ∨ p.metric.length
      > (p.metric ++ (le32 p.tags.length ++ TG)).length) := by
    simp only [List.length_append]
    omega
  rw [if_neg hb4]
  rw [List.take_left, List.drop_left]
  have hb5 : ¬ ((le32 p.tags.length ++ TG).length < 4) := by
    simp only [List.length_append, le32, leBytes_length]
    omega
  rw [if_neg hb5]
  have hrtc : leRead 4 (le32 p.tags.length ++ TG) = p.tags.length := by
    rw [le32, leRead_leBytes_append]
    exact Nat.mod_eq_of_lt (by norm_num; omega)
  rw [hrtc]
  have hb6 : ¬ (p.tags.length > 100) := by omega
  rw [if_neg hb6]
  rw [drop_length_append (le32 p.tags.length) _ 4
    (by rw [le32, leBytes_length])]
  have hpt := parseWalTags_roundtrip p.tags hkv hnodup []
    (by intro kv _ kv2 h2; simp at h2)
  rw [← hTG] at hpt
  rw [hpt]
  rfl

theorem tagBytes_length_le (tm : TagMap)
    (hkv : ∀ kv ∈ tm, kv.1.length ≤ 256 ∧ kv.2.length ≤ 256) :
    (tm.flatMap (fun kv =>
      le32 kv.1.length ++ kv.1 ++ le32 kv.2.length ++ kv.2)).length
      ≤ 520 * tm.length := by
  induction tm with
  | nil => simp
  | cons kv rest ih =>
      have h := hkv kv (List.mem_cons_self kv rest)
      have hr := ih (fun kv2 h2 => hkv kv2 (List.mem_cons_of_mem kv h2))
      simp only [le32] at hr
      simp only [List.flatMap_cons, List.length_append, List.length_cons,
        le32, leBytes_length]
      omega

theorem walEntryBody_length_bounds (seq : Nat) (p : TimePoint Nat)
    (hm : p.metric.length ≤ 1024) (htc : p.tags.length ≤ 100)
    (hkv : ∀ kv ∈ p.tags, kv.1.length ≤ 256 ∧ kv.2.length ≤ 256) :
    32 ≤ (walEntryBody seq p).length
    ∧ (walEntryBody seq p).length < 2 ^ 32 := by
  have htg := tagBytes_length_le p.tags hkv
  simp only [le32] at htg
  rw [walEntryBody]
  simp only [List.length_append, le64, le32, leBytes_length]
  constructor <;> omega

theorem walRecoverLoop_congr :
    ∀ (f1 f2 : Nat) (bs : List Nat) (m : Nat),
      bs.length ≤ f1 → bs.length ≤ f2 →
      walRecoverLoop f1 bs m = walRecoverLoop f2 bs m := by
  intro f1
  induction f1 with
  | zero =>
      intro f2 bs m h1 h2
      have hbs : bs = [] := List.length_eq_zero.mp (by omega)
      subst hbs
      cases f2 with
      | zero => rfl
      | succ f2' => simp [walRecoverLoop]
  | succ f1' ih =>
      intro f2 bs m h1 h2
      cases f2 with
      | zero =>
          have hbs : bs = [] := List.length_eq_zero.mp (by omega)
          subst hbs
          simp [walRecoverLoop]
      | succ f2' =>
          rw [walRecoverLoop, walRecoverLoop]
          by_cases hlen : bs.length < 4
          · rw [if_pos hlen, if_pos hlen]
          · rw [if_neg hlen, if_neg hlen]
            by_cases hsz : leRead 4 bs = 0
                ∨ (bs.drop 4).length < leRead 4 bs
            · rw [if_pos hsz, if_pos hsz]
            · rw [if_neg hsz, if_neg hsz]
              push_neg at hsz
              have hd : ((bs.drop 4).drop (leRead 4 bs)).length ≤ f1'
                  ∧ ((bs.drop 4).drop (leRead 4 bs)).length ≤ f2' := by
                simp only [List.length_drop] at hsz ⊢
                omega
              rcases hpe : parseEntry ((bs.drop 4).take (leRead 4 bs))
                with ⟨o, s⟩
              cases o with
              | none => simp only [hpe]
              | some p =>
                  have hrec := ih f2' ((bs.drop 4).drop (leRead 4 bs))
                    (Max.max m (s.getD m)) hd.1 hd.2
                  simp only [hpe, hrec]

/-- The running `maxSequence` after scanning records carrying sequence
numbers `s0, s0 + 1, ...` (`n` of them) starting from `m`. -/
def seqFold : Nat → Nat → Nat → Nat
  | m, _, 0 => m
  | m, s0, n + 1 => seqFold (Max.max m s0) (s0 + 1) n

theorem seqFold_eq (n : Nat) :
    ∀ m s0 : Nat, 1 ≤ n → seqFold m s0 n = Max.max m (s0 + n - 1) := by
  induction n with
  | zero => intro m s0 h; omega
  | succ n ih =>
      intro m s0 _
      cases n with
      | zero =>
          rw [seqFold, seqFold]
          omega
      | succ n' =>
          rw [seqFold, ih (Max.max m s0) (s0 + 1) (by omega)]
          omega

theorem walRecoverLoop_walBytes (ps : List (TimePoint Nat))
    (hcaps : ∀ p ∈ ps, PointCaps p) :
    ∀ s0 : Nat, s0 + ps.length ≤ 2 ^ 64 →
    ∀ (junk : List Nat) (m fuel : Nat),
      (walBytes s0 ps ++ junk).length ≤ fuel →
      walRecoverLoop fuel (walBytes s0 ps ++ junk) m
        = ((ps ++ (walRecoverLoop junk.length junk
              (seqFold m s0 ps.length)).1),
           (walRecoverLoop junk.length junk (seqFold m s0 ps.length)).2)
    := by
  induction ps with
  | nil =>
      intro s0 _ junk m fuel hfuel
      rw [walBytes] at hfuel ⊢
      rw [List.nil_append] at hfuel ⊢
      rw [walRecoverLoop_congr fuel junk.length junk m hfuel (le_refl _)]
      rfl
  | cons p ps' ih =>
      intro s0 hs junk m fuel hfuel
      have hpc := hcaps p (List.mem_cons_self p ps')
      obtain ⟨hts, hv, hm, htc, hkv, hnodup⟩ := hpc
      have hbb := walEntryBody_length_bounds s0 p hm htc hkv
      rw [walBytes, walEntry] at hfuel ⊢
      simp only [List.append_assoc] at hfuel ⊢
      set B := walEntryBody s0 p with hB
      set W := walBytes (s0 + 1) ps' ++ junk with hW
      have hlenB : (le32 B.length ++ (B ++ W)).length
          = 4 + B.length + W.length := by
        simp only [List.length_append, le32, leBytes_length]
        omega
      cases fuel with
      | zero =>
          exfalso
          rw [hlenB] at hfuel
          omega
      | succ fuel' =>
          rw [walRecoverLoop]
          rw [if_neg (by rw [hlenB]; omega)]
          have hread : leRead 4 (le32 B.length ++ (B ++ W)) = B.length := by
            rw [le32, leRead_leBytes_append]
            exact Nat.mod_eq_of_lt (by norm_num; omega)
          rw [hread]
          rw [drop_length_append (le32 B.length) (B ++ W) 4
            (by rw [le32, leBytes_length])]
          rw [if_neg (by
            simp only [not_or, List.length_append]
            omega)]
          have hpe : parseEntry ((B ++ W).take B.length) = (some p, some s0)
              := by
            rw [List.take_left]
            exact parseEntry_walEntry s0 p
              (by simp only [List.length_cons] at hs; omega)
              ⟨hts, hv, hm, htc, hkv, hnodup⟩
          have hdropB : (B ++ W).drop B.length = W := List.drop_left B W
          have hih := ih
            (fun q hq => hcaps q (List.mem_cons_of_mem p hq))
            (s0 + 1) (by simp only [List.length_cons] at hs; omega)
            junk (Max.max m s0) fuel'
            (by
              rw [hlenB, hW, List.length_append] at hfuel
              rw [List.length_append]
              omega)
          simp only [hpe, hdropB, Option.getD_some]
          rw [hW, hih]
          simp only [List.cons_append, List.length_cons]
          rw [seqFold]

/-- The shapes of a torn log tail at which the recovery loop stops
without recording a sequence number: a truncated size field, a zero
`entrySize`, an `entrySize` past end-of-file, or a framed entry too
short to contain its sequence number. -/
def WalTear (junk : List Nat) : Prop :=
  junk.length < 4
  ∨ (4 ≤ junk.length
      ∧ (leRead 4 junk = 0 ∨ (junk.drop 4).length < leRead 4 junk))
  ∨ (4 ≤ junk.length ∧ leRead 4 junk ≠ 0
      ∧ leRead 4 junk ≤ (junk.drop 4).length ∧ leRead 4 junk < 8)

theorem walRecoverLoop_tear (junk : List Nat) (m fuel : Nat)
    (h : WalTear junk) :
    walRecoverLoop fuel junk m = ([], m) := by
  cases fuel with
  | zero => rfl
  | succ f =>
      rw [walRecoverLoop]
      rcases h with h | ⟨h4, h⟩ | ⟨h4, hnz, hle, hlt⟩
      · rw [if_pos h]
      · rw [if_neg (by omega), if_pos h]
      · rw [if_neg (by omega)]
        rw [if_neg (by simp only [not_or]; exact ⟨hnz, by omega⟩)]
        have hpe : parseEntry ((junk.drop 4).take (leRead 4 junk))
            = (none, none) := by
          rw [parseEntry, if_pos (by
            simp only [List.length_take]
            omega)]
        simp only [hpe, Option.getD_none]
        simp

/-- A framed record whose `metricLen` field (2000) violates the 1024-byte
cap: `parseEntry` reads its sequence, then throws on the metric length. -/
def walCapTear (seqJ tsJ vJ : Nat) (pad : List Nat) : List Nat :=
  le32 (28 + pad.length)
    ++ le64 seqJ ++ le64 tsJ ++ le64 vJ ++ le32 2000 ++ pad

theorem walRecoverLoop_capTear (seqJ tsJ vJ : Nat) (pad : List Nat)
    (m fuel : Nat) (hfuel : 1 ≤ fuel) (hpad : pad.length ≤ 1000)
    (hseqJ : seqJ < 2 ^ 64) :
    walRecoverLoop fuel (walCapTear seqJ tsJ vJ pad) m
      = ([], Max.max m seqJ) := by
  cases fuel with
  | zero => omega
  | succ f =>
      rw [walCapTear, walRecoverLoop]
      simp only [List.append_assoc]
      set B := le64 seqJ ++ (le64 tsJ ++ (le64 vJ ++ (le32 2000 ++ pad)))
        with hB
      have hlenB : B.length = 28 + pad.length := by
        rw [hB]
        simp only [List.length_append, le64, le32, leBytes_length]
        omega
      rw [if_neg (by
        simp only [List.length_append, le32, leBytes_length]
        omega)]
      have hread : leRead 4 (le32 (28 + pad.length) ++ B)
          = 28 + pad.length := by
        rw [le32, leRead_leBytes_append]
        exact Nat.mod_eq_of_lt (by norm_num; omega)
      rw [hread]
      rw [drop_length_append (le32 (28 + pad.length)) B 4
        (by rw [le32, leBytes_length])]
      rw [if_neg (by simp only [not_or]; omega)]
      have htake : B.take (28 + pad.length) = B := by
        rw [List.take_of_length_le (by omega)]
      have hpe : parseEntry B = (none, some seqJ) := by
        rw [hB, parseEntry]
        rw [if_neg (by
          simp only [List.length_append, le64, le32, leBytes_length]
          omega)]
        have hr1 : leRead 8 (le64 seqJ ++ (le64 tsJ ++ (le64 vJ
            ++ (le32 2000 ++ pad)))) = seqJ := by
          rw [le64, leRead_leBytes_append]
          exact Nat.mod_eq_of_lt hseqJ
        rw [hr1]
        rw [drop_length_append (le64 seqJ) _ 8 (by rw [le64, leBytes_length])]
        rw [if_neg (by
          simp only [List.length_append, le64, le32, leBytes_length]
          omega)]
        rw [drop_length_append (le64 tsJ) _ 8 (by rw [le64, leBytes_length])]
        rw [if_neg (by
          simp only [List.length_append, le64, le32, leBytes_length]
          omega)]
        rw [drop_length_append (le64 vJ) _ 8 (by rw [le64, leBytes_length])]
        rw [if_neg (by
          simp only [List.length_append, le32, leBytes_length]
          omega)]
        have hr2 : leRead 4 (le32 2000 ++ pad) = 2000 := by
          rw [le32, leRead_leBytes_append]
          decide
        rw [hr2]
        rw [if_pos (by omega)]
      rw [htake, hpe]
      simp

theorem walBytes_length_pos (s0 : Nat) (p : TimePoint Nat)
    (ps : List (TimePoint Nat)) :
    0 < (walBytes s0 (p :: ps)).length := by
  rw [walBytes, walEntry]
  simp only [List.length_append, le32, leBytes_length]
  omega

theorem walCapTear_length_pos (seqJ tsJ vJ : Nat) (pad : List Nat) :
    1 ≤ (walCapTear seqJ tsJ vJ pad).length := by
  rw [walCapTear]
  simp only [List.length_append, le64, le32, leBytes_length]
  omega

/-- C5: WAL `recover()` returns exactly the points of the longest
well-formed prefix of the log. For any log consisting of well-formed
records (sequences `s0, s0 + 1, ...`, format caps respected) followed by
a torn tail, it parses forward, truncates at the first entry whose
`entrySize` is zero, truncated or extending past end-of-file (first
conjunct, `WalTear` tails, whose sequence is unreadable), or whose
metric length violates the 1024-byte cap (second conjunct, where the bad
entry's sequence `seqJ` is still observed before the throw), returning
exactly the prefix points `ps`; and it sets the next sequence number to
the maximum observed sequence plus one: `s0 + |ps|` in the first case,
`max(s0 + |ps| - 1, seqJ) + 1` in the second. -/
theorem c5_theorem (ps : List (TimePoint Nat)) (hne : ps ≠ [])
    (hcaps : ∀ p ∈ ps, PointCaps p)
    (s0 : Nat) (hs : s0 + ps.length ≤ 2 ^ 64) :
    (∀ junk : List Nat, WalTear junk →
        walRecover (walBytes s0 ps ++ junk) = (ps, some (s0 + ps.length)))
    ∧ (∀ (seqJ tsJ vJ : Nat) (pad : List Nat),
        seqJ < 2 ^ 64 → pad.length ≤ 1000 →
        walRecover (walBytes s0 ps ++ walCapTear seqJ tsJ vJ pad)
          = (ps, some (Max.max (s0 + ps.length - 1) seqJ + 1))) := by
  cases ps with
  | nil => exact absurd rfl hne
  | cons p0 ps0 =>
      have hlen1 : 1 ≤ (p0 :: ps0).length := by
        simp only [List.length_cons]
        omega
      have hm0 : seqFold 0 s0 (p0 :: ps0).length
          = s0 + (p0 :: ps0).length - 1 := by
        rw [seqFold_eq (p0 :: ps0).length 0 s0 hlen1]
        omega
      constructor
      · intro junk hjunk
        rw [walRecover]
        rw [if_neg (by
          rw [List.length_append]
          have := walBytes_length_pos s0 p0 ps0
          omega)]
        rw [walRecoverLoop_walBytes (p0 :: ps0) hcaps s0 hs junk 0
          (walBytes s0 (p0 :: ps0) ++ junk).length (le_refl _)]
        rw [walRecoverLoop_tear junk (seqFold 0 s0 (p0 :: ps0).length)
          junk.length hjunk]
        rw [hm0]
        have hmax : s0 + (p0 :: ps0).length - 1 + 1
            = s0 + (p0 :: ps0).length := by omega
        rw [List.append_nil]
        simp [hmax]
        omega
      · intro seqJ tsJ vJ pad hseqJ hpad
        rw [walRecover]
        rw [if_neg (by
          rw [List.length_append]
          have := walBytes_length_pos s0 p0 ps0
          omega)]
        rw [walRecoverLoop_walBytes (p0 :: ps0) hcaps s0 hs
          (walCapTear seqJ tsJ vJ pad) 0
          (walBytes s0 (p0 :: ps0) ++ walCapTear seqJ tsJ vJ pad).length
          (le_refl _)]
        rw [walRecoverLoop_capTear seqJ tsJ vJ pad
          (seqFold 0 s0 (p0 :: ps0).length)
          (walCapTear seqJ tsJ vJ pad).length
          (walCapTear_length_pos seqJ tsJ vJ pad) hpad hseqJ]
        rw [hm0, List.append_nil]

/-- A concrete point for exercising the recovery theorems: metric "m",
timestamp 5, value 7, no tags. -/
def walP : TimePoint Nat :=
  { metric := [109], timestamp := 5, value := 7, tags := [] }

theorem c5_witness :
    walRecover (walBytes 0 [walP] ++ [0, 0, 0, 0]) = ([walP], some 1)
    ∧ walRecover (walBytes 0 [walP] ++ walCapTear 9 0 0 [])
        = ([walP], some 10) := by
  have hcaps : ∀ p ∈ [walP], PointCaps p := by
    intro q hq
    rw [List.mem_singleton] at hq
    subst hq
    exact ⟨by decide, by decide, by decide, by decide, by decide, by decide⟩
  constructor
  · have h := (c5_theorem [walP] (List.cons_ne_nil _ _) hcaps 0
      (by decide)).1 [0, 0, 0, 0]
      (Or.inr (Or.inl ⟨by decide, Or.inl (by decide)⟩))
    simpa using h
  · have h := (c5_theorem [walP] (List.cons_ne_nil _ _) hcaps 0
      (by decide)).2 9 0 0 [] (by decide) (by decide)
    simpa using h

end WaffleDB
